import Mathlib

/-!
Verification development for the JVM dependency-attribution engine in
`src/python/pants/backend/jvm/tasks/jvm_dependency_analyzer.py`.

Targets are identified by natural numbers; file paths, classfile entry names
and jar paths are strings.  Python dictionaries with default values
(`defaultdict`) are embedded as total functions with the default as the value
at untouched keys.  `twitter.common.collections.OrderedSet` is embedded as a
duplicate-free list with append-if-absent insertion.  Python `set` values for
transitive dependency accumulation are embedded as `Finset Nat`.
-/

/-- The build graph as seen by the analyzer: `univ` is the finite set of all
target nodes known to the build graph, `targets` is `self.context.targets()`
(the targets in play for this invocation).  `dependencies` gives the declared
direct dependency edges, `javaSources t` is `some l` exactly when the target
carries the `java_sources` attribute (a `ScalaLibrary` nested-sub-target
list), and the `is...` flags embed the Python `isinstance` tests.  `sources`
is `sources_relative_to_buildroot()` and `jarDeps` the `(org, name)` pairs of
`jar_dependencies`. -/
structure BuildGraph where
  univ : List Nat
  targets : List Nat
  dependencies : Nat → List Nat
  javaSources : Nat → Option (List Nat)
  isJvmTarget : Nat → Bool
  isJarLibrary : Nat → Bool
  isScalaLibrary : Nat → Bool
  sources : Nat → List String
  jarDeps : Nat → List (String × String)

/-- Modelled from the spec: `sort_targets` lives in `pants.base.build_graph`,
outside the provided sources.  The spec requires a topological sort of the
full target set so that, after reversal, each target is processed only after
all its dependencies, and the traversal must terminate (without raising) on
graphs that contain cycles.  We model the reversed (dependencies-first)
processing order directly: repeatedly emit every pending node all of whose
dependencies are no longer pending; if a round gets stuck (a cycle), force
out the first pending node and continue.  The `fuel` argument only bounds the
recursion and is always sufficient when it starts at the list length. -/
def topoRoundsAux (g : BuildGraph) : Nat → List Nat → List Nat
  | _, [] => []
  | 0, _ => []
  | fuel + 1, t :: rem =>
    let pending := t :: rem
    let ready := pending.filter fun x => (g.dependencies x).all fun d => !pending.contains d
    if ready.isEmpty then
      t :: topoRoundsAux g fuel rem
    else
      ready ++ topoRoundsAux g fuel
        (pending.filter fun x => !((g.dependencies x).all fun d => !pending.contains d))

/-- Modelled from the spec: the processing order
`reversed(sort_targets(self.context.targets()))` used by
`_compute_transitive_deps_by_target` (dependencies before dependents on
acyclic graphs, total and terminating on cyclic ones). -/
def sortedTargets (g : BuildGraph) : List Nat :=
  topoRoundsAux g g.univ.length g.univ

/-- Embeds lines 173-176: `transitive_deps = set(); for dep in
target.dependencies: transitive_deps.update(transitive_deps_by_target.get(dep,
[])); transitive_deps.add(dep)`. -/
def depsUnion (g : BuildGraph) (m : Nat → Finset Nat) (t : Nat) : Finset Nat :=
  (g.dependencies t).foldl (fun acc d => (acc ∪ m d) ∪ {d}) ∅

/-- Embeds lines 180-183: when the target has a `java_sources` attribute, each
nested sub-target's own direct dependencies are added to that sub-target's
entry of the map. -/
def jsRegister (g : BuildGraph) (m : Nat → Finset Nat) (t : Nat) : Nat → Finset Nat :=
  match g.javaSources t with
  | none => m
  | some js =>
      js.foldl (fun mm j => Function.update mm j (mm j ∪ (g.dependencies j).toFinset)) m

/-- One iteration of the loop body (lines 172-185): compute the union of the
direct dependencies and their recorded closures from the incoming map, apply
the `java_sources` registrations, then assign the computed set to the target's
entry. -/
def processTarget (g : BuildGraph) (m : Nat → Finset Nat) (t : Nat) : Nat → Finset Nat :=
  Function.update (jsRegister g m t) t (depsUnion g m t)

/-- The loop of `_compute_transitive_deps_by_target` run over an explicit
processing order, starting from the empty `defaultdict(set)`. -/
def transitiveDepsFold (g : BuildGraph) (ord : List Nat) : Nat → Finset Nat :=
  ord.foldl (processTarget g) fun _ => ∅

/-- Embeds `_compute_transitive_deps_by_target` (lines 166-186): the map from
each target to the set of targets it depends on transitively, accumulated in
dependency order. -/
def compute_transitive_deps_by_target (g : BuildGraph) : Nat → Finset Nat :=
  transitiveDepsFold g (sortedTargets g)

/-- The processing order is a valid dependency-first order: no duplicates,
every dependency of an emitted node is emitted strictly earlier, and every
in-play target is covered.  On acyclic well-formed graphs `sortedTargets`
satisfies this; a cycle necessarily violates it. -/
def TopoOk (g : BuildGraph) (ord : List Nat) : Prop :=
  ord.Nodup ∧
    (∀ i : Fin ord.length, ∀ d ∈ g.dependencies (ord.get i), d ∈ ord.take i.1) ∧
    ∀ t ∈ g.targets, t ∈ ord

instance (g : BuildGraph) (ord : List Nat) : Decidable (TopoOk g ord) := by
  unfold TopoOk; infer_instance

/-- Suffix test on strings, embedding Python `str.endswith`. -/
def strEndsWith (s suffix : String) : Bool :=
  List.isSuffixOf suffix.data s.data

/-- Embeds `_jar_classfiles` (lines 125-130): the entries of the archive at
`p` whose names end with `.class`.  `zipEntries` stands for the read-only
filesystem primitive `open_zip(p).namelist()`; opening a zip is modelled as
applying this function. -/
def jar_classfiles (zipEntries : String → List String) (p : String) : List String :=
  (zipEntries p).filter fun c => strEndsWith c ".class"

/-- Embeds `os.path.join(a, b)` for the buildroot-relative paths used here
(the analyzer only joins a root with root-relative paths). -/
def pjoin (a b : String) : String := a ++ "/" ++ b

/-- Insertion into a `twitter.common.collections.OrderedSet`: append if the
element is not already present. -/
def osAdd (l : List Nat) (t : Nat) : List Nat :=
  if t ∈ l then l else l ++ [t]

/-- One registration `targets_by_file[k].add(t)` on the `defaultdict(OrderedSet)`. -/
def addOwner (m : String → List Nat) (k : String) (t : Nat) : String → List Nat :=
  Function.update m k (osAdd (m k) t)

/-- A module reference of the resolution report, `(org, name, rev)`; the
analyzer keys auxiliary maps by `(org, name)` only. -/
structure Ref where
  org : String
  name : String
  rev : String
deriving DecidableEq

/-- The part of an `IvyResolveResult` info object the analyzer consumes:
the iteration order of `modules_by_ref`, the artifact path of each module and
the dependency edges of the internal module/reference graph. -/
structure IvyInfo where
  refs : List Ref
  artifact : Ref → String
  depRefs : Ref → List Ref

/-- Modelled from the spec: one step of the resolution-report traversal
primitive (`ivyinfo.traverse_dependency_graph`, which lives in
`pants.backend.jvm.ivy_utils`, outside the provided sources): extend a
reference front by its direct dependency edges, deduplicating. -/
def reachStep (info : IvyInfo) (cur : List Ref) : List Ref :=
  (cur ++ cur.flatMap info.depRefs).dedup

/-- Modelled from the spec: iterate `reachStep` enough times to reach a fixed
point on any graph over `info.refs`. -/
def reachIter (info : IvyInfo) : Nat → List Ref → List Ref
  | 0, cur => cur
  | n + 1, cur => reachIter info n (reachStep info cur)

/-- Modelled from the spec: `get_transitive_jars_by_ref` (lines 98-101) via
the external traversal: the set of archive files the reference and its
transitive dependencies resolve to, with set semantics (a diamond contributes
its archive once). -/
def transitiveJars (info : IvyInfo) (r : Ref) : List String :=
  ((reachIter info info.refs.length [r]).map info.artifact).dedup

/-- The analyzer's environment beyond the build graph: the buildroot, the
`classes_by_target` product (target, then `rel_paths()` pairs of a classes
directory and the class files under it), the `ivy_resolve_symlink_map`
product (absent when `None`), the `ivy_jar_products` product (absent when
missing), and the filesystem primitives `os.path.realpath` and zip listing. -/
structure AnalyzerEnv where
  graph : BuildGraph
  buildroot : String
  classesByTarget : List (Nat × List (String × List String))
  symlinkMap : Option (List (String × String))
  ivyProducts : Option (List (List IvyInfo))
  realpath : String → String
  zipEntries : String → List String

/-- Embeds lines 90-92: the snapshot of the symlink map taken under
`IvyTaskMixin.symlink_map_lock` (`m.copy() if m is not None else ` the empty
map), exposed as a lookup. -/
def symSnapshot (env : AnalyzerEnv) : String → Option String :=
  match env.symlinkMap with
  | none => fun _ => none
  | some l => fun k => (l.find? fun p => p.1 == k).map Prod.snd

/-- Embeds lines 67-69: a `JvmTarget` registers each of its sources (joined
to the buildroot) as owned by itself. -/
def registerOwnSources (env : AnalyzerEnv) (m : String → List Nat) (t : Nat) :
    String → List Nat :=
  if env.graph.isJvmTarget t then
    (env.graph.sources t).foldl
      (fun mm src => addOwner mm (pjoin env.buildroot src) t) m
  else m

/-- Embeds lines 74-77: a `ScalaLibrary` additionally registers every nested
`java_sources` sub-target's sources as owned by the outer target `t`. -/
def registerJavaSourcesSources (env : AnalyzerEnv) (m : String → List Nat) (t : Nat) :
    String → List Nat :=
  if env.graph.isScalaLibrary t then
    ((env.graph.javaSources t).getD []).foldl
      (fun mm j =>
        (env.graph.sources j).foldl
          (fun mm2 src => addOwner mm2 (pjoin env.buildroot src) t) mm)
      m
  else m

/-- Embeds the body of the source-mapping loop (lines 66-77) for one target. -/
def sourceStep (env : AnalyzerEnv) (m : String → List Nat) (t : Nat) : String → List Nat :=
  registerJavaSourcesSources env (registerOwnSources env m t) t

/-- Embeds lines 70-72 for one target: a `JarLibrary` (the `elif` branch, so
not a `JvmTarget`) records itself as a declaring target of each of its
`(org, name)` jar coordinates in `jarlibs_by_id`. -/
def jarlibStep (env : AnalyzerEnv) (jm : String × String → List Nat) (t : Nat) :
    String × String → List Nat :=
  if !env.graph.isJvmTarget t && env.graph.isJarLibrary t then
    (env.graph.jarDeps t).foldl
      (fun mm jd => Function.update mm jd (osAdd (mm jd) t)) jm
  else jm

/-- Embeds the single pass over `self.context.targets()` (lines 66-77),
building the source-ownership map and the `jarlibs_by_id` auxiliary index
together. -/
def mapSources (env : AnalyzerEnv) :
    (String → List Nat) × (String × String → List Nat) :=
  env.graph.targets.foldl
    (fun p t => (sourceStep env p.1 t, jarlibStep env p.2 t))
    (fun _ => [], fun _ => [])

/-- Embeds the class-mapping loop (lines 80-86): each produced class file is
registered under both its bare relative path and the classes-directory-joined
path, owned by the producing target. -/
def mapClasses (env : AnalyzerEnv) (m : String → List Nat) : String → List Nat :=
  env.classesByTarget.foldl
    (fun m1 p =>
      p.2.foldl
        (fun m2 q =>
          q.2.foldl
            (fun m3 cls => addOwner (addOwner m3 cls p.1) (pjoin q.1 cls) p.1)
            m2)
        m1)
    m

/-- Embeds `register_transitive_jars_for_ref` (lines 95-114): when the
reference's `(org, name)` key has declaring `JarLibrary` targets, every
classfile of every transitively resolved archive that has a non-empty symlink
entry is registered as owned by every declaring target. -/
def register_transitive_jars_for_ref (env : AnalyzerEnv)
    (jl : String × String → List Nat) (info : IvyInfo) (r : Ref)
    (m : String → List Nat) : String → List Nat :=
  if jl (r.org, r.name) = [] then m
  else
    (transitiveJars info r).foldl
      (fun mm jar =>
        match symSnapshot env (env.realpath jar) with
        | none => mm
        | some s =>
            if s.isEmpty then mm
            else
              (jar_classfiles env.zipEntries s).foldl
                (fun mm2 cls =>
                  (jl (r.org, r.name)).foldl
                    (fun mm3 t => addOwner mm3 cls t) mm2)
                mm)
      m

/-- Embeds the jar-mapping loop (lines 116-121): when `ivy_jar_products` is
present, run `register_transitive_jars_for_ref` for every reference of every
resolution info object. -/
def mapJars (env : AnalyzerEnv) (jl : String × String → List Nat)
    (m : String → List Nat) : String → List Nat :=
  match env.ivyProducts with
  | none => m
  | some infoss =>
      infoss.foldl
        (fun m1 infos =>
          infos.foldl
            (fun m2 info =>
              info.refs.foldl
                (fun m3 r => register_transitive_jars_for_ref env jl info r m3)
                m2)
            m1)
        m

/-- The File Ownership Index after the source and class passes only (lines
62-86), before any archive-derived registration. -/
def sourceOutputIndex (env : AnalyzerEnv) : String → List Nat :=
  mapClasses env (mapSources env).1

/-- Embeds `targets_by_file` (lines 48-123): the map from file identifiers to
the ordered set of owning targets, built by the source pass, then the class
pass, then the archive pass. -/
def targets_by_file (env : AnalyzerEnv) : String → List Nat :=
  mapJars env (mapSources env).2 (sourceOutputIndex env)

/-- The trace of archive reads performed by `register_transitive_jars_for_ref`
for one reference: `_jar_classfiles(symlink)` opens the archive anew on every
call (line 127), so one read is recorded per resolved jar with a non-empty
symlink entry. -/
def refReads (env : AnalyzerEnv) (jl : String × String → List Nat)
    (info : IvyInfo) (r : Ref) : List String :=
  if jl (r.org, r.name) = [] then []
  else
    (transitiveJars info r).foldl
      (fun acc jar =>
        match symSnapshot env (env.realpath jar) with
        | none => acc
        | some s => if s.isEmpty then acc else acc ++ [s])
      []

/-- The trace of archive reads performed while building `targets_by_file`
(the jar pass is the only phase that opens archives). -/
def archiveReads (env : AnalyzerEnv) : List String :=
  match env.ivyProducts with
  | none => []
  | some infoss =>
      infoss.foldl
        (fun a1 infos =>
          infos.foldl
            (fun a2 info =>
              info.refs.foldl
                (fun a3 r => a3 ++ refReads env (mapSources env).2 info r)
                a2)
            a1)
        []

/-- The classfile-listing requests made for one reference, written as a flat
selection over its transitively resolved jars. -/
def refRequests (env : AnalyzerEnv) (jl : String × String → List Nat)
    (info : IvyInfo) (r : Ref) : List String :=
  if jl (r.org, r.name) = [] then []
  else
    (transitiveJars info r).filterMap fun jar =>
      match symSnapshot env (env.realpath jar) with
      | none => none
      | some s => if s.isEmpty then none else some s

/-- All classfile-listing requests made while building `targets_by_file`, in
order. -/
def allRequests (env : AnalyzerEnv) : List String :=
  match env.ivyProducts with
  | none => []
  | some infoss =>
      infoss.flatMap fun infos =>
        infos.flatMap fun info =>
          info.refs.flatMap fun r => refRequests env (mapSources env).2 info r

/-- Splitting a character list at a separator, embedding Python
`str.split(sep)`: the empty string yields one empty field. -/
def splitChars (sep : Char) : List Char → List (List Char)
  | [] => [[]]
  | c :: cs =>
    match splitChars sep cs with
    | [] => [[c]]
    | w :: ws => if c = sep then [] :: w :: ws else (c :: w) :: ws

/-- Embeds Python `s.split(sep)` on strings. -/
def strSplit (s : String) (sep : Char) : List String :=
  (splitChars sep s.data).map fun cs => String.mk cs

/-- The platform environment consumed by the bootstrap index:
`DistributionLocator.cached().system_properties` and the filesystem
primitives `os.path.isdir`, `os.listdir`, `os.path.isfile` and zip listing. -/
structure BootEnv where
  sysProps : String → Option String
  isdir : String → Bool
  listdir : String → List String
  isfile : String → Bool
  zipEntries : String → List String

/-- Embeds `get_path` (lines 142-143): the colon-separated entries of a
system property, defaulting to the empty string. -/
def getPath (e : BootEnv) (key : String) : List String :=
  strSplit ((e.sysProps key).getD "") ':'

/-- Embeds `find_jars_in_dirs` (lines 145-150): the `.jar`-suffixed entries
listed in each existing directory, accumulated in order. -/
def findJarsInDirs (e : BootEnv) (dirs : List String) : List String :=
  dirs.foldl
    (fun ret d =>
      if e.isdir d then ret ++ (e.listdir d).filter (fun s => strEndsWith s ".jar") else ret)
    []

/-- Embeds `_find_all_bootstrap_jars` (lines 141-164): candidates from the
endorsed-override directories, then the raw boot classpath entries, then the
extension directories, kept only when they are existing regular files. -/
def find_all_bootstrap_jars (e : BootEnv) : List String :=
  let boot_classpath := getPath e "sun.boot.class.path"
  let override_jars := findJarsInDirs e (getPath e "java.endorsed.dirs")
  let extension_jars := findJarsInDirs e (getPath e "java.ext.dirs")
  (override_jars ++ boot_classpath ++ extension_jars).filter e.isfile

/-- Embeds `bootstrap_jar_classfiles` (lines 132-139): the set of classfile
names accumulated over all bootstrap jars. -/
def bootstrap_jar_classfiles (e : BootEnv) : Finset String :=
  (find_all_bootstrap_jars e).foldl
    (fun acc jar => (jar_classfiles e.zipEntries jar).foldl (fun a c => insert c a) acc)
    ∅

/-- Spec-side reading of the Bootstrap Artifact Index candidate list: jar
files of the override directories first, then the boot classpath, then the
extension directories. -/
def bootstrapCandidatesSpec (e : BootEnv) : List String :=
  findJarsInDirs e (getPath e "java.endorsed.dirs") ++
    getPath e "sun.boot.class.path" ++
      findJarsInDirs e (getPath e "java.ext.dirs")

/-- Spec-side reading of `bootstrap_jar_classfiles`: the flat set of `.class`
entry names found across the kept candidates. -/
def bootstrapJarClassfilesSpec (e : BootEnv) : Finset String :=
  (((bootstrapCandidatesSpec e).filter e.isfile).flatMap
    (jar_classfiles e.zipEntries)).toFinset

/-- A property preserved by every step of a fold is preserved by the fold. -/
theorem foldl_pres {σ α : Type _} (P : σ → Prop) (f : σ → α → σ)
    (h : ∀ s a, P s → P (f s a)) : ∀ (l : List α) (s : σ), P s → P (l.foldl f s) := by
  intro l
  induction l with
  | nil => intro s hs; exact hs
  | cons a l ih => intro s hs; exact ih (f s a) (h s a hs)

/-- Variant of `foldl_pres` where the step hypothesis may use membership of
the step element in the folded list. -/
theorem foldl_pres_mem {σ α : Type _} (P : σ → Prop) (f : σ → α → σ) :
    ∀ (l : List α), (∀ s a, a ∈ l → P s → P (f s a)) → ∀ s : σ, P s → P (l.foldl f s) := by
  intro l
  induction l with
  | nil => intro _ s hs; exact hs
  | cons a l ih =>
      intro h s hs
      exact ih (fun s' a' ha' => h s' a' (List.mem_cons_of_mem a ha'))
        (f s a) (h s a (List.mem_cons_self a l) hs)

/-- A fold over a pair whose two components evolve independently is the pair
of the component folds. -/
theorem foldl_pair {α β γ : Type _} (f : α → γ → α) (g : β → γ → β) :
    ∀ (l : List γ) (a : α) (b : β),
      l.foldl (fun p x => (f p.1 x, g p.2 x)) (a, b) = (l.foldl f a, l.foldl g b) := by
  intro l
  induction l with
  | nil => intro a b; rfl
  | cons x l ih => intro a b; simpa using ih (f a x) (g b x)

/-- Chaining a reflexive-transitive step relation along a fold. -/
theorem foldl_chain {σ α : Type _} (R : σ → σ → Prop)
    (htrans : ∀ a b c, R a b → R b c → R a c) (hrefl : ∀ s, R s s)
    (f : σ → α → σ) (h : ∀ s a, R s (f s a)) :
    ∀ (l : List α) (s : σ), R s (l.foldl f s) := by
  intro l
  induction l with
  | nil => intro s; exact hrefl s
  | cons a l ih => intro s; exact htrans _ _ _ (h s a) (ih (f s a))

/-- The accumulator only grows along the union fold of `depsUnion`. -/
theorem foldl_union_acc_sub (m : Nat → Finset Nat) :
    ∀ (l : List Nat) (acc : Finset Nat),
      acc ⊆ l.foldl (fun acc d => (acc ∪ m d) ∪ {d}) acc := by
  intro l
  induction l with
  | nil => intro acc; exact Finset.Subset.refl acc
  | cons d l ih =>
      intro acc
      refine Finset.Subset.trans ?_ (ih ((acc ∪ m d) ∪ {d}))
      intro x hx
      exact Finset.mem_union_left _ (Finset.mem_union_left _ hx)

/-- Auxiliary form of `foldl_union_acc_sub` with distinct start accumulator. -/
theorem foldl_union_acc_sub' (m : Nat → Finset Nat) :
    ∀ (l : List Nat) (acc acc' : Finset Nat), acc ⊆ acc' →
      acc ⊆ l.foldl (fun acc d => (acc ∪ m d) ∪ {d}) acc' := by
  intro l
  induction l with
  | nil => intro acc acc' h; exact h
  | cons d l ih =>
      intro acc acc' h
      refine ih acc _ ?_
      intro x hx
      exact Finset.mem_union_left _ (Finset.mem_union_left _ (h hx))

/-- A member of the folded dependency list contributes its recorded closure
and itself to the union fold, whatever the start accumulator. -/
theorem foldl_union_mem_sub (m : Nat → Finset Nat) :
    ∀ (l : List Nat) (acc : Finset Nat) (d : Nat), d ∈ l →
      m d ∪ {d} ⊆ l.foldl (fun acc d => (acc ∪ m d) ∪ {d}) acc := by
  intro l
  induction l with
  | nil => intro acc d hd; cases hd
  | cons b l ih =>
      intro acc d hd
      simp only [List.foldl_cons]
      rcases List.mem_cons.mp hd with h | h
      · subst h
        refine foldl_union_acc_sub' m l _ _ ?_
        intro x hx
        rcases Finset.mem_union.mp hx with h' | h'
        · exact Finset.mem_union_left _ (Finset.mem_union_right _ h')
        · exact Finset.mem_union_right _ h'
      · exact ih _ d h

/-- Each direct dependency contributes its recorded closure and itself to
`depsUnion`. -/
theorem depsUnion_dep_sub (g : BuildGraph) (m : Nat → Finset Nat) (t d : Nat)
    (hd : d ∈ g.dependencies t) : m d ∪ {d} ⊆ depsUnion g m t :=
  foldl_union_mem_sub m (g.dependencies t) ∅ d hd

/-- All direct dependencies are contained in `depsUnion`. -/
theorem depsUnion_deps_sub (g : BuildGraph) (m : Nat → Finset Nat) (t : Nat) :
    (g.dependencies t).toFinset ⊆ depsUnion g m t := by
  intro d hd
  have hd' : d ∈ g.dependencies t := List.mem_toFinset.mp hd
  exact depsUnion_dep_sub g m t d hd' (Finset.mem_union_right _ (Finset.mem_singleton_self d))

/-- The `java_sources` registration fold leaves an entry unchanged once it
already contains that entry's direct dependencies. -/
theorem jsFold_keep (g : BuildGraph) (t : Nat) :
    ∀ (js : List Nat) (m : Nat → Finset Nat),
      (g.dependencies t).toFinset ⊆ m t →
      (js.foldl (fun mm j => Function.update mm j (mm j ∪ (g.dependencies j).toFinset)) m) t
        = m t := by
  intro js
  induction js with
  | nil => intro m _; rfl
  | cons j js ih =>
      intro m hm
      simp only [List.foldl_cons]
      by_cases hj : j = t
      · subst hj
        have hupd : Function.update m j (m j ∪ (g.dependencies j).toFinset) j = m j := by
          rw [Function.update_same]
          exact Finset.union_eq_left.mpr hm
        rw [ih _ (by rw [hupd]; exact hm), hupd]
      · have hupd : Function.update m j (m j ∪ (g.dependencies j).toFinset) t = m t :=
          Function.update_noteq (Ne.symm hj) _ m
        rw [ih _ (by rw [hupd]; exact hm), hupd]

/-- Entries only grow along the `java_sources` registration fold. -/
theorem jsFold_mono (g : BuildGraph) :
    ∀ (js : List Nat) (m : Nat → Finset Nat) (k : Nat),
      m k ⊆ (js.foldl (fun mm j => Function.update mm j (mm j ∪ (g.dependencies j).toFinset)) m) k := by
  intro js
  induction js with
  | nil => intro m k; exact Finset.Subset.refl _
  | cons j js ih =>
      intro m k
      simp only [List.foldl_cons]
      refine Finset.Subset.trans ?_ (ih _ k)
      by_cases hj : j = k
      · subst hj
        rw [Function.update_same]
        exact Finset.subset_union_left
      · rw [Function.update_noteq (Ne.symm hj)]

/-- A nested sub-target's direct dependencies are present after the
`java_sources` registration fold visits it. -/
theorem jsFold_establish (g : BuildGraph) :
    ∀ (js : List Nat) (m : Nat → Finset Nat) (j : Nat), j ∈ js →
      (g.dependencies j).toFinset ⊆
        (js.foldl (fun mm j => Function.update mm j (mm j ∪ (g.dependencies j).toFinset)) m) j := by
  intro js
  induction js with
  | nil => intro m j hj; cases hj
  | cons j0 js ih =>
      intro m j hj
      simp only [List.foldl_cons]
      rcases List.mem_cons.mp hj with h | h
      · subst h
        refine Finset.Subset.trans ?_ (jsFold_mono g js _ j)
        rw [Function.update_same]
        exact Finset.subset_union_right
      · exact ih _ j h

/-- The `java_sources` registration leaves an entry unchanged once it already
contains that entry's direct dependencies. -/
theorem jsRegister_keep (g : BuildGraph) (m : Nat → Finset Nat) (t u : Nat)
    (h : (g.dependencies u).toFinset ⊆ m u) : jsRegister g m t u = m u := by
  unfold jsRegister
  cases g.javaSources t with
  | none => rfl
  | some js => exact jsFold_keep g u js m h

/-- Entries only grow under the `java_sources` registration. -/
theorem jsRegister_mono (g : BuildGraph) (m : Nat → Finset Nat) (t k : Nat) :
    m k ⊆ jsRegister g m t k := by
  unfold jsRegister
  cases g.javaSources t with
  | none => exact Finset.Subset.refl _
  | some js => exact jsFold_mono g js m k

/-- After the `java_sources` registration of a target carrying sub-target `J`,
the entry of `J` contains the direct dependencies of `J`. -/
theorem jsRegister_establish (g : BuildGraph) (m : Nat → Finset Nat) (t : Nat)
    (js : List Nat) (J : Nat) (hjs : g.javaSources t = some js) (hJ : J ∈ js) :
    (g.dependencies J).toFinset ⊆ jsRegister g m t J := by
  unfold jsRegister
  rw [hjs]
  exact jsFold_establish g js m J hJ

/-- The `java_sources` registration writes only the nested sub-targets'
entries: any other entry is untouched. -/
theorem jsFold_outside (g : BuildGraph) :
    ∀ (js : List Nat) (m : Nat → Finset Nat) (u : Nat), u ∉ js →
      (js.foldl (fun mm j => Function.update mm j (mm j ∪ (g.dependencies j).toFinset)) m) u
        = m u := by
  intro js
  induction js with
  | nil => intro m u _; rfl
  | cons j js ih =>
      intro m u hu
      simp only [List.foldl_cons]
      have hju : j ≠ u := fun h => hu (h ▸ List.mem_cons_self j js)
      have hu' : u ∉ js := fun h => hu (List.mem_cons_of_mem j h)
      rw [ih _ u hu', Function.update_noteq (Ne.symm hju)]

/-- Restatement of `jsFold_outside` through `jsRegister`. -/
theorem jsRegister_outside (g : BuildGraph) (m : Nat → Finset Nat) (t : Nat)
    (js : List Nat) (u : Nat) (hjs : g.javaSources t = some js) (hu : u ∉ js) :
    jsRegister g m t u = m u := by
  unfold jsRegister
  rw [hjs]
  exact jsFold_outside g js m u hu

/-- The entry of the processed target is assigned `depsUnion`. -/
theorem processTarget_self (g : BuildGraph) (m : Nat → Finset Nat) (t : Nat) :
    processTarget g m t t = depsUnion g m t := by
  unfold processTarget
  rw [Function.update_same]

/-- Processing another target does not change an entry that already contains
its own direct dependencies. -/
theorem processTarget_keep (g : BuildGraph) (m : Nat → Finset Nat) (t u : Nat)
    (hne : u ≠ t) (h : (g.dependencies u).toFinset ⊆ m u) :
    processTarget g m t u = m u := by
  unfold processTarget
  rw [Function.update_noteq hne, jsRegister_keep g m t u h]

/-- Processing any target preserves the fact that an entry contains its own
direct dependencies. -/
theorem processTarget_deps_pres (g : BuildGraph) (m : Nat → Finset Nat) (t u : Nat)
    (h : (g.dependencies u).toFinset ⊆ m u) :
    (g.dependencies u).toFinset ⊆ processTarget g m t u := by
  by_cases hut : u = t
  · subst hut
    rw [processTarget_self]
    exact depsUnion_deps_sub g m u
  · rw [processTarget_keep g m t u hut h]
    exact h

/-- Stability: once a target's entry contains its direct dependencies and the
target is never processed again, its entry is final. -/
theorem fold_stable (g : BuildGraph) :
    ∀ (rest : List Nat) (m : Nat → Finset Nat) (t : Nat), t ∉ rest →
      (g.dependencies t).toFinset ⊆ m t →
      (rest.foldl (processTarget g) m) t = m t := by
  intro rest
  induction rest with
  | nil => intro m t _ _; rfl
  | cons u rest ih =>
      intro m t ht hsub
      have htu : t ≠ u := fun h => ht (h ▸ List.mem_cons_self u rest)
      have ht' : t ∉ rest := fun h => ht (List.mem_cons_of_mem u h)
      simp only [List.foldl_cons]
      have hkeep : processTarget g m u t = m t := processTarget_keep g m u t htu hsub
      rw [ih _ t ht' (by rw [hkeep]; exact hsub), hkeep]

/-- The value of a target's entry right after its processing step, in terms
of the map accumulated before it; unchanged afterwards when the target does
not recur. -/
theorem fold_value_at (g : BuildGraph) (l₁ l₂ : List Nat) (t : Nat) (ht : t ∉ l₂) :
    transitiveDepsFold g (l₁ ++ t :: l₂) t = depsUnion g (transitiveDepsFold g l₁) t := by
  unfold transitiveDepsFold
  rw [List.foldl_append]
  simp only [List.foldl_cons]
  rw [fold_stable g l₂ _ t ht
    (by rw [processTarget_self]; exact depsUnion_deps_sub g _ t)]
  exact processTarget_self g _ t

/-- Every processed target's entry contains its direct dependencies; no
acyclicity is needed. -/
theorem fold_deps_sub (g : BuildGraph) (ord : List Nat) (t : Nat) (ht : t ∈ ord) :
    (g.dependencies t).toFinset ⊆ transitiveDepsFold g ord t := by
  obtain ⟨l₁, l₂, rfl⟩ := List.append_of_mem ht
  unfold transitiveDepsFold
  rw [List.foldl_append]
  simp only [List.foldl_cons]
  refine foldl_pres (fun m => (g.dependencies t).toFinset ⊆ m t) (processTarget g)
    (fun m u h => processTarget_deps_pres g m u t h) l₂ _ ?_
  simp only [processTarget_self]
  exact depsUnion_deps_sub g _ t

/-- Core invariant of the accumulation loop: on a duplicate-free processing
order that emits every dependency strictly before its dependent, the final
entry of a processed target contains each direct dependency's final entry
together with the dependency itself. -/
theorem fold_superset (g : BuildGraph) (ord : List Nat) (hnd : ord.Nodup)
    (htopo : ∀ i : Fin ord.length, ∀ d ∈ g.dependencies (ord.get i), d ∈ ord.take i.1)
    (T D : Nat) (hT : T ∈ ord) (hD : D ∈ g.dependencies T) :
    transitiveDepsFold g ord D ∪ {D} ⊆ transitiveDepsFold g ord T := by
  obtain ⟨i, hi⟩ := List.mem_iff_get.mp hT
  have hex : ∃ l₁ l₂, ord = l₁ ++ T :: l₂ ∧ ∀ d ∈ g.dependencies T, d ∈ l₁ := by
    refine ⟨ord.take i.1, ord.drop (i.1 + 1), ?_, ?_⟩
    · have h1 : ord.take i.1 ++ ord.get i :: ord.drop (i.1 + 1) = ord := by
        rw [List.get_cons_drop, List.take_append_drop]
      rw [hi] at h1
      exact h1.symm
    · intro d hd
      exact htopo i d (by rw [hi]; exact hd)
  obtain ⟨l₁, l₂, hsplit, hdepsT⟩ := hex
  subst hsplit
  rcases List.nodup_append.mp hnd with ⟨hnd₁, hnd₂, hdisj⟩
  have hTl₂ : T ∉ l₂ := (List.nodup_cons.mp hnd₂).1
  have hDl₁ : D ∈ l₁ := hdepsT D hD
  have hDcons : D ∉ T :: l₂ := hdisj hDl₁
  obtain ⟨l₁a, l₁b, hsplit2⟩ := List.append_of_mem hDl₁
  have hDl₁b : D ∉ l₁b := by
    rw [hsplit2] at hnd₁
    rcases List.nodup_append.mp hnd₁ with ⟨_, hcons, _⟩
    exact (List.nodup_cons.mp hcons).1
  have hpre : transitiveDepsFold g l₁ D = depsUnion g (transitiveDepsFold g l₁a) D := by
    rw [hsplit2]
    exact fold_value_at g l₁a l₁b D hDl₁b
  have hdepsD : (g.dependencies D).toFinset ⊆ transitiveDepsFold g l₁ D := by
    rw [hpre]
    exact depsUnion_deps_sub g _ D
  have hfinD : transitiveDepsFold g (l₁ ++ T :: l₂) D = transitiveDepsFold g l₁ D := by
    unfold transitiveDepsFold
    rw [List.foldl_append]
    exact fold_stable g (T :: l₂) _ D hDcons hdepsD
  have hfinT : transitiveDepsFold g (l₁ ++ T :: l₂) T
      = depsUnion g (transitiveDepsFold g l₁) T := fold_value_at g l₁ l₂ T hTl₂
  rw [hfinD, hfinT]
  exact depsUnion_dep_sub g (transitiveDepsFold g l₁) T D hD

/-- The dependency-first rounds model returns a permutation of its input
whenever the fuel covers the input length (so always, as called). -/
theorem topoRoundsAux_perm (g : BuildGraph) :
    ∀ (fuel : Nat) (l : List Nat), l.length ≤ fuel → (topoRoundsAux g fuel l).Perm l := by
  intro fuel
  induction fuel with
  | zero =>
      intro l hl
      have : l = [] := List.eq_nil_of_length_eq_zero (Nat.le_zero.mp hl)
      subst this
      simp [topoRoundsAux]
  | succ fuel ih =>
      intro l hl
      cases l with
      | nil => simp [topoRoundsAux]
      | cons t rem =>
          simp only [topoRoundsAux]
          by_cases hready :
              ((t :: rem).filter fun x =>
                (g.dependencies x).all fun d => !(t :: rem).contains d).isEmpty
          · rw [if_pos hready]
            exact (ih rem (by simpa using Nat.le_of_succ_le_succ hl)).cons t
          · rw [if_neg hready]
            have hpart := List.filter_append_perm
              (fun x => (g.dependencies x).all fun d => !(t :: rem).contains d) (t :: rem)
            have hlen : ((t :: rem).filter fun x =>
                  (g.dependencies x).all fun d => !(t :: rem).contains d).length +
                ((t :: rem).filter fun x =>
                  !((g.dependencies x).all fun d => !(t :: rem).contains d)).length
                = (t :: rem).length := by
              have := hpart.length_eq
              simpa [List.length_append] using this
            have hpos : 0 < ((t :: rem).filter fun x =>
                (g.dependencies x).all fun d => !(t :: rem).contains d).length := by
              rcases Nat.eq_zero_or_pos (((t :: rem).filter fun x =>
                  (g.dependencies x).all fun d => !(t :: rem).contains d).length) with h | h
              · exact absurd (List.isEmpty_iff.mpr (List.eq_nil_of_length_eq_zero h)) hready
              · exact h
            have hlen2 : ((t :: rem).filter fun x =>
                !((g.dependencies x).all fun d => !(t :: rem).contains d)).length ≤ fuel := by
              have hl' : (t :: rem).length ≤ fuel + 1 := hl
              simp only [List.length_cons] at hl' hlen
              omega
            exact ((ih _ hlen2).append_left _).trans hpart

/-- Processing a target establishes, for each of its nested `java_sources`
sub-targets, that the sub-target's entry contains its own direct
dependencies. -/
theorem processTarget_establish_js (g : BuildGraph) (m : Nat → Finset Nat) (T : Nat)
    (js : List Nat) (J : Nat) (hjs : g.javaSources T = some js) (hJ : J ∈ js) :
    (g.dependencies J).toFinset ⊆ processTarget g m T J := by
  by_cases hJT : J = T
  · subst hJT
    rw [processTarget_self]
    exact depsUnion_deps_sub g m J
  · unfold processTarget
    rw [Function.update_noteq hJT]
    exact jsRegister_establish g m T js J hjs hJ

/-- Dependency graph with a two-cycle between targets 0 and 1, as created by
a nested `java_sources` sub-target depending back on its outer target. -/
def cycGraphC1 : BuildGraph :=
  { univ := [0, 1]
    targets := [0, 1]
    dependencies := fun t => if t = 0 then [1] else if t = 1 then [0] else []
    javaSources := fun _ => none
    isJvmTarget := fun _ => false
    isJarLibrary := fun _ => false
    isScalaLibrary := fun _ => false
    sources := fun _ => []
    jarDeps := fun _ => [] }

/-- C1 counterexample: on the two-cycle graph, target 0 is in the invocation's
target set and depends on target 1, yet the returned map violates
`map[0] ⊇ map[1] ∪ AsSet 1`: whichever cycle member is processed first misses
the closure of the other, so the claimed invariant fails on cyclic graphs. -/
theorem c1_counterexample :
    0 ∈ cycGraphC1.targets ∧ 1 ∈ cycGraphC1.dependencies 0 ∧
      ¬ (compute_transitive_deps_by_target cycGraphC1 1 ∪ {1} ⊆
          compute_transitive_deps_by_target cycGraphC1 0) := by
  decide

/-- C1 (amended): for every target `T` of the invocation's target set and
every direct dependency `D` of `T`, the returned map satisfies
`map[T] ⊇ map[D] ∪ AsSet D` provided the processing order
`reversed(sort_targets(...))` is a genuine dependency-first order (no
duplicates and every dependency emitted strictly before its dependent),
which holds exactly for acyclic graphs; a `java_sources` back-edge cycle
breaks it (see the counterexample). -/
theorem transitive_deps_superset_of_topo (g : BuildGraph)
    (h : TopoOk g (sortedTargets g)) (T D : Nat)
    (hT : T ∈ g.targets) (hD : D ∈ g.dependencies T) :
    compute_transitive_deps_by_target g D ∪ {D} ⊆
      compute_transitive_deps_by_target g T := by
  obtain ⟨hnd, htopo, hcov⟩ := h
  exact fold_superset g (sortedTargets g) hnd htopo T D (hcov T hT) hD

/-- Acyclic three-target chain used to witness the amended C1. -/
def acycGraphC1 : BuildGraph :=
  { univ := [0, 1, 2]
    targets := [0, 1, 2]
    dependencies := fun t => if t = 0 then [1] else if t = 1 then [2] else []
    javaSources := fun _ => none
    isJvmTarget := fun _ => false
    isJarLibrary := fun _ => false
    isScalaLibrary := fun _ => false
    sources := fun _ => []
    jarDeps := fun _ => [] }

/-- Witness for the amended C1 on a concrete acyclic graph. -/
theorem transitive_deps_superset_of_topo_witness :
    TopoOk acycGraphC1 (sortedTargets acycGraphC1) ∧
      0 ∈ acycGraphC1.targets ∧ 1 ∈ acycGraphC1.dependencies 0 ∧
      compute_transitive_deps_by_target acycGraphC1 1 ∪ {1} ⊆
        compute_transitive_deps_by_target acycGraphC1 0 :=
  ⟨by decide, by decide, by decide,
    transitive_deps_superset_of_topo acycGraphC1 (by decide) 0 1 (by decide) (by decide)⟩

/-- C3: the transitive-deps computation terminates and returns a mapping for
every input graph, cyclic ones included: the processing order is a
permutation of the graph's node set (the traversal neither loops nor drops
nodes), every in-play target is processed, and every in-play target's entry
in the returned total map contains at least its direct dependencies.  No
error is ever raised: the computation is a total function. -/
theorem compute_transitive_deps_total (g : BuildGraph)
    (h : ∀ t ∈ g.targets, t ∈ g.univ) :
    (sortedTargets g).Perm g.univ ∧ (∀ t ∈ g.targets, t ∈ sortedTargets g) ∧
      ∀ t ∈ g.targets,
        (g.dependencies t).toFinset ⊆ compute_transitive_deps_by_target g t := by
  have hperm : (sortedTargets g).Perm g.univ := topoRoundsAux_perm g _ _ le_rfl
  refine ⟨hperm, ?_, ?_⟩
  · intro t ht
    exact hperm.mem_iff.mpr (h t ht)
  · intro t ht
    exact fold_deps_sub g _ t (hperm.mem_iff.mpr (h t ht))

/-- Dependency graph with a two-cycle, a fresh copy for the C3 witness. -/
def cycGraphC3 : BuildGraph :=
  { univ := [3, 4]
    targets := [3, 4]
    dependencies := fun t => if t = 3 then [4] else if t = 4 then [3] else []
    javaSources := fun _ => none
    isJvmTarget := fun _ => false
    isJarLibrary := fun _ => false
    isScalaLibrary := fun _ => false
    sources := fun _ => []
    jarDeps := fun _ => [] }

/-- Witness for C3 on a concrete cyclic graph: the computation completes and
covers both cycle members. -/
theorem compute_transitive_deps_total_witness :
    (∀ t ∈ cycGraphC3.targets, t ∈ cycGraphC3.univ) ∧
      ((sortedTargets cycGraphC3).Perm cycGraphC3.univ ∧
        (∀ t ∈ cycGraphC3.targets, t ∈ sortedTargets cycGraphC3) ∧
        ∀ t ∈ cycGraphC3.targets,
          (cycGraphC3.dependencies t).toFinset ⊆
            compute_transitive_deps_by_target cycGraphC3 t) :=
  ⟨by decide, compute_transitive_deps_total cycGraphC3 (by decide)⟩

/-- C7: for a graph target `T` carrying a nested `java_sources` sub-target
list `js`, the direct dependencies of each nested sub-target `J ∈ js` end up
registered in `J`'s own entry of the returned map, and the registration step
(lines 180-183) writes only the nested sub-targets' entries, leaving every
other entry, the outer target's included, unchanged. -/
theorem nested_java_sources_registration (g : BuildGraph) (T : Nat) (js : List Nat)
    (J : Nat) (hT : T ∈ g.univ) (hjs : g.javaSources T = some js) (hJ : J ∈ js) :
    (g.dependencies J).toFinset ⊆ compute_transitive_deps_by_target g J ∧
      ∀ (m : Nat → Finset Nat) (u : Nat), u ∉ js → jsRegister g m T u = m u := by
  constructor
  · have hTord : T ∈ sortedTargets g :=
      (topoRoundsAux_perm g _ _ le_rfl).mem_iff.mpr hT
    obtain ⟨l₁, l₂, hsplit⟩ := List.append_of_mem hTord
    unfold compute_transitive_deps_by_target transitiveDepsFold
    rw [hsplit, List.foldl_append]
    simp only [List.foldl_cons]
    refine foldl_pres (fun m => (g.dependencies J).toFinset ⊆ m J) (processTarget g)
      (fun m u hsub => processTarget_deps_pres g m u J hsub) l₂ _ ?_
    exact processTarget_establish_js g _ T js J hjs hJ
  · intro m u hu
    exact jsRegister_outside g m T js u hjs hu

/-- Graph with a `ScalaLibrary`-style target 0 whose nested `java_sources`
sub-target 2 depends back on 0. -/
def gC7 : BuildGraph :=
  { univ := [0, 1, 2]
    targets := [0, 1, 2]
    dependencies := fun t => if t = 0 then [1] else if t = 2 then [0] else []
    javaSources := fun t => if t = 0 then some [2] else none
    isJvmTarget := fun _ => false
    isJarLibrary := fun _ => false
    isScalaLibrary := fun t => t = 0
    sources := fun _ => []
    jarDeps := fun _ => [] }

/-- Witness for C7 on a concrete graph with a nested back-edge. -/
theorem nested_java_sources_registration_witness :
    0 ∈ gC7.univ ∧ gC7.javaSources 0 = some [2] ∧ (2 : Nat) ∈ [2] ∧
      (gC7.dependencies 2).toFinset ⊆ compute_transitive_deps_by_target gC7 2 ∧
      jsRegister gC7 (fun _ => ∅) 0 0 = (fun _ : Nat => (∅ : Finset Nat)) 0 :=
  ⟨by decide, rfl, by decide,
    (nested_java_sources_registration gC7 0 [2] 2 (by decide) rfl (by decide)).1,
    (nested_java_sources_registration gC7 0 [2] 2 (by decide) rfl (by decide)).2
      (fun _ => ∅) 0 (by decide)⟩

/-- Pointwise extension order on owner maps: every value list is extended
in place (owners are only appended, never removed or reordered). -/
def OwnerExt (m₁ m₂ : String → List Nat) : Prop :=
  ∀ k, m₁ k <+: m₂ k

/-- Reflexivity of `OwnerExt`. -/
theorem ownerExt_refl (m : String → List Nat) : OwnerExt m m :=
  fun k => List.prefix_refl (m k)

/-- Transitivity of `OwnerExt`. -/
theorem ownerExt_trans (a b c : String → List Nat)
    (h₁ : OwnerExt a b) (h₂ : OwnerExt b c) : OwnerExt a c :=
  fun k => (h₁ k).trans (h₂ k)

/-- `osAdd` only appends. -/
theorem osAdd_prefix_of (l : List Nat) (t : Nat) : l <+: osAdd l t := by
  unfold osAdd
  by_cases h : t ∈ l
  · rw [if_pos h]
  · rw [if_neg h]
    exact List.prefix_append l [t]

/-- The added owner is present after `osAdd`. -/
theorem osAdd_self_mem (l : List Nat) (t : Nat) : t ∈ osAdd l t := by
  unfold osAdd
  by_cases h : t ∈ l
  · rw [if_pos h]; exact h
  · rw [if_neg h]; exact List.mem_append_right l (List.mem_singleton.mpr rfl)

/-- The result of `osAdd` is never empty. -/
theorem osAdd_ne_nil (l : List Nat) (t : Nat) : osAdd l t ≠ [] := by
  intro h
  have := osAdd_self_mem l t
  rw [h] at this
  cases this

/-- `osAdd` preserves freedom from duplicates. -/
theorem osAdd_nodup (l : List Nat) (t : Nat) (h : l.Nodup) : (osAdd l t).Nodup := by
  unfold osAdd
  by_cases ht : t ∈ l
  · rw [if_pos ht]; exact h
  · rw [if_neg ht]
    rw [List.nodup_append]
    exact ⟨h, List.nodup_singleton t, by
      intro a ha hmem
      rw [List.mem_singleton] at hmem
      exact ht (hmem ▸ ha)⟩

/-- Provenance of `osAdd`: members come from the old list or are the added
owner. -/
theorem osAdd_sub (l : List Nat) (t : Nat) :
    ∀ x ∈ osAdd l t, x ∈ l ∨ x = t := by
  intro x hx
  unfold osAdd at hx
  by_cases ht : t ∈ l
  · rw [if_pos ht] at hx; exact Or.inl hx
  · rw [if_neg ht] at hx
    rcases List.mem_append.mp hx with h | h
    · exact Or.inl h
    · exact Or.inr (List.mem_singleton.mp h)

/-- A single registration only extends the map. -/
theorem addOwner_ext (m : String → List Nat) (k : String) (t : Nat) :
    OwnerExt m (addOwner m k t) := by
  intro k'
  unfold addOwner
  by_cases h : k' = k
  · subst h
    rw [Function.update_same]
    exact osAdd_prefix_of (m k') t
  · rw [Function.update_noteq h]

/-- Value of a registration at its own key. -/
theorem addOwner_self (m : String → List Nat) (k : String) (t : Nat) :
    addOwner m k t k = osAdd (m k) t := by
  unfold addOwner
  rw [Function.update_same]

/-- Value of a registration at another key. -/
theorem addOwner_other (m : String → List Nat) (k : String) (t : Nat)
    (k' : String) (h : k' ≠ k) : addOwner m k t k' = m k' := by
  unfold addOwner
  rw [Function.update_noteq h]

/-- Membership is preserved forward along `OwnerExt`. -/
theorem ownerExt_mem (m₁ m₂ : String → List Nat) (h : OwnerExt m₁ m₂)
    (k : String) (t : Nat) (ht : t ∈ m₁ k) : t ∈ m₂ k :=
  (h k).subset ht

/-- Non-emptiness is preserved forward along `OwnerExt`. -/
theorem ownerExt_nonnil (m₁ m₂ : String → List Nat) (h : OwnerExt m₁ m₂)
    (k : String) (ht : m₁ k ≠ []) : m₂ k ≠ [] := by
  obtain ⟨tl, htl⟩ := h k
  rw [← htl]
  intro hcon
  exact ht (List.append_eq_nil.mp hcon).1

/-- A fold whose every step extends the map extends the map. -/
theorem foldl_ownerext {α : Type _} (f : (String → List Nat) → α → (String → List Nat))
    (hf : ∀ m x, OwnerExt m (f m x)) (l : List α) (m : String → List Nat) :
    OwnerExt m (l.foldl f m) :=
  foldl_chain OwnerExt (fun _ _ _ => ownerExt_trans _ _ _) ownerExt_refl f hf l m

/-- Establishment through a fold: if every step extends the map, some listed
element's step establishes a goal monotone under extension, then the fold
establishes it. -/
theorem foldl_estab {α : Type _} (f : (String → List Nat) → α → (String → List Nat))
    (P : (String → List Nat) → Prop)
    (hf : ∀ m x, OwnerExt m (f m x))
    (hP : ∀ m₁ m₂, OwnerExt m₁ m₂ → P m₁ → P m₂)
    (l : List α) (x : α) (hx : x ∈ l) (hestab : ∀ m, P (f m x)) :
    ∀ m : String → List Nat, P (l.foldl f m) := by
  intro m
  obtain ⟨l₁, l₂, rfl⟩ := List.append_of_mem hx
  rw [List.foldl_append]
  simp only [List.foldl_cons]
  exact hP _ _ (foldl_ownerext f hf l₂ _) (hestab _)

/-- The own-sources registration only extends the map. -/
theorem registerOwnSources_ext (env : AnalyzerEnv) (m : String → List Nat) (t : Nat) :
    OwnerExt m (registerOwnSources env m t) := by
  unfold registerOwnSources
  by_cases h : env.graph.isJvmTarget t
  · rw [if_pos h]
    exact foldl_ownerext _ (fun mm src => addOwner_ext mm (pjoin env.buildroot src) t) _ m
  · rw [if_neg h]
    exact ownerExt_refl m

/-- The nested-sources registration only extends the map. -/
theorem registerJavaSourcesSources_ext (env : AnalyzerEnv) (m : String → List Nat)
    (t : Nat) : OwnerExt m (registerJavaSourcesSources env m t) := by
  unfold registerJavaSourcesSources
  by_cases h : env.graph.isScalaLibrary t
  · rw [if_pos h]
    exact foldl_ownerext _
      (fun mm j => foldl_ownerext _
        (fun mm2 src => addOwner_ext mm2 (pjoin env.buildroot src) t) _ mm)
      _ m
  · rw [if_neg h]
    exact ownerExt_refl m

/-- One source-pass step only extends the map. -/
theorem sourceStep_ext (env : AnalyzerEnv) (m : String → List Nat) (t : Nat) :
    OwnerExt m (sourceStep env m t) :=
  ownerExt_trans _ _ _ (registerOwnSources_ext env m t)
    (registerJavaSourcesSources_ext env _ t)

/-- The class pass only extends the map. -/
theorem mapClasses_ext (env : AnalyzerEnv) (m : String → List Nat) :
    OwnerExt m (mapClasses env m) := by
  unfold mapClasses
  refine foldl_ownerext _ ?_ _ m
  intro m1 p
  refine foldl_ownerext _ ?_ _ m1
  intro m2 q
  refine foldl_ownerext _ ?_ _ m2
  intro m3 cls
  exact ownerExt_trans _ _ _ (addOwner_ext m3 cls p.1)
    (addOwner_ext _ (pjoin q.1 cls) p.1)

/-- One jar registration step only extends the map. -/
theorem register_transitive_jars_for_ref_ext (env : AnalyzerEnv)
    (jl : String × String → List Nat) (info : IvyInfo) (r : Ref)
    (m : String → List Nat) :
    OwnerExt m (register_transitive_jars_for_ref env jl info r m) := by
  unfold register_transitive_jars_for_ref
  by_cases h : jl (r.org, r.name) = []
  · rw [if_pos h]
    exact ownerExt_refl m
  · rw [if_neg h]
    refine foldl_ownerext _ ?_ _ m
    intro mm jar
    cases symSnapshot env (env.realpath jar) with
    | none => exact ownerExt_refl mm
    | some s =>
        by_cases hs : s.isEmpty
        · simp only [hs, if_true]
          exact ownerExt_refl mm
        · simp only [hs, if_false]
          refine foldl_ownerext _ ?_ _ mm
          intro mm2 cls
          exact foldl_ownerext _ (fun mm3 t => addOwner_ext mm3 cls t) _ mm2

/-- The jar pass only extends the map. -/
theorem mapJars_ext (env : AnalyzerEnv) (jl : String × String → List Nat)
    (m : String → List Nat) : OwnerExt m (mapJars env jl m) := by
  unfold mapJars
  cases env.ivyProducts with
  | none => exact ownerExt_refl m
  | some infoss =>
      refine foldl_ownerext _ ?_ _ m
      intro m1 infos
      refine foldl_ownerext _ ?_ _ m1
      intro m2 info
      exact foldl_ownerext _
        (fun m3 r => register_transitive_jars_for_ref_ext env jl info r m3) _ m2

/-- The source-pass component of `mapSources`. -/
theorem mapSources_fst (env : AnalyzerEnv) :
    (mapSources env).1 = env.graph.targets.foldl (sourceStep env) (fun _ => []) := by
  unfold mapSources
  rw [foldl_pair (sourceStep env) (jarlibStep env)]

/-- The `jarlibs_by_id` component of `mapSources`. -/
theorem mapSources_snd (env : AnalyzerEnv) :
    (mapSources env).2 = env.graph.targets.foldl (jarlibStep env) (fun _ => []) := by
  unfold mapSources
  rw [foldl_pair (sourceStep env) (jarlibStep env)]

/-- Membership goals are monotone along `OwnerExt`; packaged for
`foldl_estab`. -/
theorem memAt_mono (k : String) (t : Nat) :
    ∀ m₁ m₂ : String → List Nat, OwnerExt m₁ m₂ → t ∈ m₁ k → t ∈ m₂ k :=
  fun m₁ m₂ h => ownerExt_mem m₁ m₂ h k t

/-- A `JvmTarget` registers itself for each of its sources. -/
theorem registerOwnSources_estab (env : AnalyzerEnv) (t : Nat) (src : String)
    (hjvm : env.graph.isJvmTarget t = true) (hsrc : src ∈ env.graph.sources t) :
    ∀ m, t ∈ registerOwnSources env m t (pjoin env.buildroot src) := by
  intro m
  unfold registerOwnSources
  rw [if_pos hjvm]
  refine foldl_estab _ (fun mm => t ∈ mm (pjoin env.buildroot src))
    (fun mm src' => addOwner_ext mm (pjoin env.buildroot src') t)
    (memAt_mono (pjoin env.buildroot src) t) _ src hsrc ?_ m
  intro mm
  rw [addOwner_self]
  exact osAdd_self_mem _ t

/-- A `ScalaLibrary` registers itself (the outer target) for each source of
each of its nested `java_sources` sub-targets. -/
theorem registerJavaSourcesSources_estab (env : AnalyzerEnv) (t J : Nat)
    (src : String) (js : List Nat)
    (hscala : env.graph.isScalaLibrary t = true)
    (hjs : env.graph.javaSources t = some js) (hJ : J ∈ js)
    (hsrc : src ∈ env.graph.sources J) :
    ∀ m, t ∈ registerJavaSourcesSources env m t (pjoin env.buildroot src) := by
  intro m
  unfold registerJavaSourcesSources
  rw [if_pos hscala, hjs]
  simp only [Option.getD_some]
  refine foldl_estab _ (fun mm => t ∈ mm (pjoin env.buildroot src))
    (fun mm j => foldl_ownerext _
      (fun mm2 src' => addOwner_ext mm2 (pjoin env.buildroot src') t) _ mm)
    (memAt_mono (pjoin env.buildroot src) t) _ J hJ ?_ m
  intro mm
  refine foldl_estab _ (fun mm2 => t ∈ mm2 (pjoin env.buildroot src))
    (fun mm2 src' => addOwner_ext mm2 (pjoin env.buildroot src') t)
    (memAt_mono (pjoin env.buildroot src) t) _ src hsrc ?_ mm
  intro mm2
  rw [addOwner_self]
  exact osAdd_self_mem _ t

/-- `sourceStep` registers a `JvmTarget` for its own sources. -/
theorem sourceStep_estab_jvm (env : AnalyzerEnv) (t : Nat) (src : String)
    (hjvm : env.graph.isJvmTarget t = true) (hsrc : src ∈ env.graph.sources t) :
    ∀ m, t ∈ sourceStep env m t (pjoin env.buildroot src) := by
  intro m
  unfold sourceStep
  exact ownerExt_mem _ _ (registerJavaSourcesSources_ext env _ t) _ t
    (registerOwnSources_estab env t src hjvm hsrc m)

/-- `sourceStep` registers a `ScalaLibrary` for its nested sub-targets'
sources. -/
theorem sourceStep_estab_scala (env : AnalyzerEnv) (t J : Nat) (src : String)
    (js : List Nat) (hscala : env.graph.isScalaLibrary t = true)
    (hjs : env.graph.javaSources t = some js) (hJ : J ∈ js)
    (hsrc : src ∈ env.graph.sources J) :
    ∀ m, t ∈ sourceStep env m t (pjoin env.buildroot src) := by
  intro m
  unfold sourceStep
  exact registerJavaSourcesSources_estab env t J src js hscala hjs hJ hsrc _

/-- The source pass registers every in-play `JvmTarget` for each of its
sources. -/
theorem mapSources_mem_jvm (env : AnalyzerEnv) (T : Nat) (src : String)
    (hT : T ∈ env.graph.targets) (hjvm : env.graph.isJvmTarget T = true)
    (hsrc : src ∈ env.graph.sources T) :
    T ∈ (mapSources env).1 (pjoin env.buildroot src) := by
  rw [mapSources_fst]
  exact foldl_estab (sourceStep env) (fun m => T ∈ m (pjoin env.buildroot src))
    (sourceStep_ext env) (memAt_mono (pjoin env.buildroot src) T)
    env.graph.targets T hT (sourceStep_estab_jvm env T src hjvm hsrc) _

/-- The source pass registers every in-play `ScalaLibrary` for each source of
each of its nested sub-targets. -/
theorem mapSources_mem_scala (env : AnalyzerEnv) (T J : Nat) (src : String)
    (js : List Nat) (hT : T ∈ env.graph.targets)
    (hscala : env.graph.isScalaLibrary T = true)
    (hjs : env.graph.javaSources T = some js) (hJ : J ∈ js)
    (hsrc : src ∈ env.graph.sources J) :
    T ∈ (mapSources env).1 (pjoin env.buildroot src) := by
  rw [mapSources_fst]
  exact foldl_estab (sourceStep env) (fun m => T ∈ m (pjoin env.buildroot src))
    (sourceStep_ext env) (memAt_mono (pjoin env.buildroot src) T)
    env.graph.targets T hT (sourceStep_estab_scala env T J src js hscala hjs hJ hsrc) _

/-- Ownership established by the source or class pass survives to the final
index. -/
theorem targets_by_file_mem_of_phase12 (env : AnalyzerEnv) (k : String) (T : Nat)
    (h : T ∈ sourceOutputIndex env k) : T ∈ targets_by_file env k := by
  unfold targets_by_file
  exact ownerExt_mem _ _ (mapJars_ext env _ _) k T h

/-- `List.indexOf` restricted to the prefix when the element occurs there. -/
theorem indexOf_append_left_nat (a : Nat) :
    ∀ l₁ l₂ : List Nat, a ∈ l₁ → (l₁ ++ l₂).indexOf a = l₁.indexOf a := by
  intro l₁
  induction l₁ with
  | nil => intro l₂ h; cases h
  | cons b l₁ ih =>
      intro l₂ h
      by_cases hab : b = a
      · subst hab
        simp [List.indexOf_cons_self]
      · rw [List.cons_append, List.indexOf_cons_ne _ hab, List.indexOf_cons_ne _ hab,
          ih l₂ (by rcases List.mem_cons.mp h with h' | h'; exact absurd h'.symm hab; exact h')]

/-- `List.indexOf` of an element absent from the prefix is at least the
prefix length. -/
theorem indexOf_append_ge_nat (a : Nat) :
    ∀ l₁ l₂ : List Nat, a ∉ l₁ → l₁.length ≤ (l₁ ++ l₂).indexOf a := by
  intro l₁
  induction l₁ with
  | nil => intro l₂ _; exact Nat.zero_le _
  | cons b l₁ ih =>
      intro l₂ h
      have hba : b ≠ a := fun hh => h (hh ▸ List.mem_cons_self b l₁)
      have h' : a ∉ l₁ := fun hh => h (List.mem_cons_of_mem b hh)
      rw [List.cons_append, List.indexOf_cons_ne _ hba, List.length_cons]
      exact Nat.succ_le_succ (ih l₂ h')

/-- C2: for every in-play `JvmTarget` `T` and declared source `src`, the File
Ownership Index maps the buildroot-joined path of `src` to an owner list
containing `T`, and `T` is ordered before every owner that first appears in
the archive/classfile-resolution pass (i.e. every owner of that path absent
from the pre-jar-pass index `sourceOutputIndex`). -/
theorem declared_source_owner_first (env : AnalyzerEnv) (T : Nat) (src : String)
    (hT : T ∈ env.graph.targets) (hjvm : env.graph.isJvmTarget T = true)
    (hsrc : src ∈ env.graph.sources T) :
    T ∈ targets_by_file env (pjoin env.buildroot src) ∧
      ∀ X, X ∈ targets_by_file env (pjoin env.buildroot src) →
        X ∉ sourceOutputIndex env (pjoin env.buildroot src) →
        (targets_by_file env (pjoin env.buildroot src)).indexOf T <
          (targets_by_file env (pjoin env.buildroot src)).indexOf X := by
  have hmem1 : T ∈ sourceOutputIndex env (pjoin env.buildroot src) := by
    unfold sourceOutputIndex
    exact ownerExt_mem _ _ (mapClasses_ext env _) _ T
      (mapSources_mem_jvm env T src hT hjvm hsrc)
  refine ⟨targets_by_file_mem_of_phase12 env _ T hmem1, ?_⟩
  intro X hX hXpre
  have hpre : sourceOutputIndex env (pjoin env.buildroot src) <+:
      targets_by_file env (pjoin env.buildroot src) :=
    mapJars_ext env (mapSources env).2 (sourceOutputIndex env) (pjoin env.buildroot src)
  obtain ⟨tl, htl⟩ := hpre
  rw [← htl]
  rw [indexOf_append_left_nat T _ tl hmem1]
  calc (sourceOutputIndex env (pjoin env.buildroot src)).indexOf T
      < (sourceOutputIndex env (pjoin env.buildroot src)).length :=
        List.indexOf_lt_length.mpr hmem1
    _ ≤ _ := indexOf_append_ge_nat X _ tl hXpre

/-- Concrete environment for the C2 witness: one JVM target owning one
source. -/
def envC2 : AnalyzerEnv :=
  { graph :=
      { univ := [0]
        targets := [0]
        dependencies := fun _ => []
        javaSources := fun _ => none
        isJvmTarget := fun t => t = 0
        isJarLibrary := fun _ => false
        isScalaLibrary := fun _ => false
        sources := fun t => if t = 0 then ["a/A.scala"] else []
        jarDeps := fun _ => [] }
    buildroot := "br"
    classesByTarget := []
    symlinkMap := none
    ivyProducts := none
    realpath := fun p => p
    zipEntries := fun _ => [] }

/-- Witness for C2 on a concrete environment. -/
theorem declared_source_owner_first_witness :
    0 ∈ envC2.graph.targets ∧ envC2.graph.isJvmTarget 0 = true ∧
      "a/A.scala" ∈ envC2.graph.sources 0 ∧
      0 ∈ targets_by_file envC2 (pjoin envC2.buildroot "a/A.scala") :=
  ⟨by decide, by decide, by decide,
    (declared_source_owner_first envC2 0 "a/A.scala" (by decide) (by decide)
      (by decide)).1⟩

/-- C5: when the `ivy_jar_products` resolution report is missing, building
the File Ownership Index still succeeds and yields exactly the source- and
compiled-output-based registrations, with no archive-derived ones. -/
theorem missing_ivy_products_index (env : AnalyzerEnv)
    (h : env.ivyProducts = none) :
    targets_by_file env = sourceOutputIndex env := by
  unfold targets_by_file mapJars
  rw [h]

/-- Concrete environment for the C5 witness: a source registration present,
resolution report absent. -/
def envC5 : AnalyzerEnv :=
  { graph :=
      { univ := [0]
        targets := [0]
        dependencies := fun _ => []
        javaSources := fun _ => none
        isJvmTarget := fun t => t = 0
        isJarLibrary := fun _ => false
        isScalaLibrary := fun _ => false
        sources := fun t => if t = 0 then ["B.java"] else []
        jarDeps := fun _ => [] }
    buildroot := "root"
    classesByTarget := [(0, [("out", ["B.class"])])]
    symlinkMap := none
    ivyProducts := none
    realpath := fun p => p
    zipEntries := fun _ => [] }

/-- Witness for C5. -/
theorem missing_ivy_products_index_witness :
    envC5.ivyProducts = none ∧ targets_by_file envC5 = sourceOutputIndex envC5 :=
  ⟨rfl, missing_ivy_products_index envC5 rfl⟩

/-- All owner lists of a map are duplicate-free. -/
def NodupOwners (m : String → List Nat) : Prop :=
  ∀ k, (m k).Nodup

/-- A single registration preserves duplicate-freedom. -/
theorem addOwner_nodup (m : String → List Nat) (k : String) (t : Nat)
    (h : NodupOwners m) : NodupOwners (addOwner m k t) := by
  intro k'
  by_cases hk : k' = k
  · subst hk
    rw [addOwner_self]
    exact osAdd_nodup _ t (h k')
  · rw [addOwner_other m k t k' hk]
    exact h k'

/-- The source pass preserves duplicate-freedom. -/
theorem sourceStep_nodup (env : AnalyzerEnv) (m : String → List Nat) (t : Nat)
    (h : NodupOwners m) : NodupOwners (sourceStep env m t) := by
  unfold sourceStep registerJavaSourcesSources registerOwnSources
  have h1 : NodupOwners (if env.graph.isJvmTarget t then
      (env.graph.sources t).foldl (fun mm src => addOwner mm (pjoin env.buildroot src) t) m
      else m) := by
    by_cases hb : env.graph.isJvmTarget t
    · rw [if_pos hb]
      exact foldl_pres NodupOwners _
        (fun mm src => addOwner_nodup mm (pjoin env.buildroot src) t) _ m h
    · rw [if_neg hb]; exact h
  by_cases hb : env.graph.isScalaLibrary t
  · rw [if_pos hb]
    refine foldl_pres NodupOwners _ ?_ _ _ h1
    intro mm j
    exact foldl_pres NodupOwners _
      (fun mm2 src => addOwner_nodup mm2 (pjoin env.buildroot src) t) _ mm
  · rw [if_neg hb]; exact h1

/-- The class pass preserves duplicate-freedom. -/
theorem mapClasses_nodup (env : AnalyzerEnv) (m : String → List Nat)
    (h : NodupOwners m) : NodupOwners (mapClasses env m) := by
  unfold mapClasses
  refine foldl_pres NodupOwners _ ?_ _ m h
  intro m1 p
  refine foldl_pres NodupOwners _ ?_ _ m1
  intro m2 q
  refine foldl_pres NodupOwners _ ?_ _ m2
  intro m3 cls hm3
  exact addOwner_nodup _ (pjoin q.1 cls) p.1 (addOwner_nodup m3 cls p.1 hm3)

/-- The jar pass preserves duplicate-freedom. -/
theorem mapJars_nodup (env : AnalyzerEnv) (jl : String × String → List Nat)
    (m : String → List Nat) (h : NodupOwners m) : NodupOwners (mapJars env jl m) := by
  unfold mapJars
  cases env.ivyProducts with
  | none => exact h
  | some infoss =>
      refine foldl_pres NodupOwners _ ?_ _ m h
      intro m1 infos
      refine foldl_pres NodupOwners _ ?_ _ m1
      intro m2 info
      refine foldl_pres NodupOwners _ ?_ _ m2
      intro m3 r hm3
      unfold register_transitive_jars_for_ref
      by_cases hr : jl (r.org, r.name) = []
      · rw [if_pos hr]; exact hm3
      · rw [if_neg hr]
        refine foldl_pres NodupOwners _ ?_ _ m3 hm3
        intro mm jar hmm
        cases symSnapshot env (env.realpath jar) with
        | none => exact hmm
        | some s =>
            by_cases hs : s.isEmpty
            · simp only [hs, if_true]; exact hmm
            · simp only [hs, if_false]
              refine foldl_pres NodupOwners _ ?_ _ mm hmm
              intro mm2 cls hmm2
              exact foldl_pres NodupOwners _
                (fun mm3 t => addOwner_nodup mm3 cls t) _ mm2 hmm2

/-- Every owner list of the File Ownership Index is duplicate-free. -/
theorem targets_by_file_nodup (env : AnalyzerEnv) (k : String) :
    (targets_by_file env k).Nodup := by
  have h1 : NodupOwners (mapSources env).1 := by
    rw [mapSources_fst]
    exact foldl_pres NodupOwners (sourceStep env)
      (fun m t hm => sourceStep_nodup env m t hm) _ _ (fun _ => List.nodup_nil)
  have h2 : NodupOwners (sourceOutputIndex env) := mapClasses_nodup env _ h1
  exact mapJars_nodup env _ _ h2 k

/-- The diamond reference graph for the C6 witness conjunct. -/
def refA : Ref := { org := "acme", name := "widgets", rev := "1.0" }

/-- Left inner node of the diamond. -/
def refB : Ref := { org := "x", name := "b", rev := "1" }

/-- Right inner node of the diamond. -/
def refC : Ref := { org := "x", name := "c", rev := "1" }

/-- Bottom node of the diamond, reachable through both inner nodes. -/
def refD : Ref := { org := "x", name := "d", rev := "1" }

/-- Resolution info with a diamond: `refA` reaches `refD` via `refB` and via
`refC`. -/
def infoC6 : IvyInfo :=
  { refs := [refA, refB, refC, refD]
    artifact := fun r =>
      if r = refA then "A.jar" else if r = refB then "B.jar"
      else if r = refC then "C.jar" else "D.jar"
    depRefs := fun r =>
      if r = refA then [refB, refC]
      else if r = refB then [refD] else if r = refC then [refD] else [] }

/-- Environment whose resolution report contains the diamond; only the
bottom archive has a symlink entry, and it contains one classfile. -/
def envC6 : AnalyzerEnv :=
  { graph :=
      { univ := [2]
        targets := [2]
        dependencies := fun _ => []
        javaSources := fun _ => none
        isJvmTarget := fun _ => false
        isJarLibrary := fun t => t = 2
        isScalaLibrary := fun _ => false
        sources := fun _ => []
        jarDeps := fun t => if t = 2 then [("acme", "widgets")] else [] }
    buildroot := "br"
    classesByTarget := []
    symlinkMap := some [("D.jar", "D.sym")]
    ivyProducts := some [[infoC6]]
    realpath := fun p => p
    zipEntries := fun p => if p = "D.sym" then ["W.class"] else [] }

/-- C6: owner sets have set semantics — no owner list of the File Ownership
Index ever contains a target twice — and on a concrete diamond (the same
archive reachable via two distinct resolution paths) the archive's classfile
is registered for the declaring library target exactly once. -/
theorem diamond_owners_registered_once :
    (∀ (env : AnalyzerEnv) (k : String) (t : Nat),
        (targets_by_file env k).count t ≤ 1) ∧
      targets_by_file envC6 "W.class" = [2] := by
  constructor
  · intro env k t
    exact List.nodup_iff_count_le_one.mp (targets_by_file_nodup env k) t
  · decide

/-- Every owner in a map satisfies the given predicate. -/
def OwnersFrom (allowed : Nat → Prop) (m : String → List Nat) : Prop :=
  ∀ k t, t ∈ m k → allowed t

/-- Registering an allowed owner preserves owner provenance. -/
theorem addOwner_from (allowed : Nat → Prop) (m : String → List Nat) (k : String)
    (t : Nat) (ht : allowed t) (h : OwnersFrom allowed m) :
    OwnersFrom allowed (addOwner m k t) := by
  intro k' x hx
  by_cases hk : k' = k
  · subst hk
    rw [addOwner_self] at hx
    rcases osAdd_sub _ t x hx with h' | h'
    · exact h k' x h'
    · exact h' ▸ ht
  · rw [addOwner_other m k t k' hk] at hx
    exact h k' x hx

/-- Owner provenance is antitone in the predicate. -/
theorem ownersFrom_weaken (a₁ a₂ : Nat → Prop) (m : String → List Nat)
    (h : OwnersFrom a₁ m) (himp : ∀ t, a₁ t → a₂ t) : OwnersFrom a₂ m :=
  fun k t ht => himp t (h k t ht)

/-- A source-pass step only adds the stepped target as an owner. -/
theorem sourceStep_from (allowed : Nat → Prop) (env : AnalyzerEnv)
    (m : String → List Nat) (t : Nat) (ht : allowed t)
    (h : OwnersFrom allowed m) : OwnersFrom allowed (sourceStep env m t) := by
  unfold sourceStep registerJavaSourcesSources registerOwnSources
  have h1 : OwnersFrom allowed (if env.graph.isJvmTarget t then
      (env.graph.sources t).foldl (fun mm src => addOwner mm (pjoin env.buildroot src) t) m
      else m) := by
    by_cases hb : env.graph.isJvmTarget t
    · rw [if_pos hb]
      exact foldl_pres (OwnersFrom allowed) _
        (fun mm src => addOwner_from allowed mm (pjoin env.buildroot src) t ht) _ m h
    · rw [if_neg hb]; exact h
  by_cases hb : env.graph.isScalaLibrary t
  · rw [if_pos hb]
    refine foldl_pres (OwnersFrom allowed) _ ?_ _ _ h1
    intro mm j
    exact foldl_pres (OwnersFrom allowed) _
      (fun mm2 src => addOwner_from allowed mm2 (pjoin env.buildroot src) t ht) _ mm
  · rw [if_neg hb]; exact h1

/-- All owners recorded by the source pass are in-play targets. -/
theorem mapSources_fst_from (env : AnalyzerEnv) :
    OwnersFrom (fun t => t ∈ env.graph.targets) (mapSources env).1 := by
  rw [mapSources_fst]
  exact foldl_pres_mem (OwnersFrom fun t => t ∈ env.graph.targets) (sourceStep env)
    env.graph.targets
    (fun m t htl hm => sourceStep_from _ env m t htl hm)
    _ (fun k t ht => absurd ht (List.not_mem_nil t))

/-- All declaring targets recorded in `jarlibs_by_id` are in-play targets. -/
theorem mapSources_snd_from (env : AnalyzerEnv) :
    ∀ key x, x ∈ (mapSources env).2 key → x ∈ env.graph.targets := by
  rw [mapSources_snd]
  refine foldl_pres_mem (fun jm => ∀ key x, x ∈ jm key → x ∈ env.graph.targets)
    (jarlibStep env) env.graph.targets ?_ _ ?_
  case refine_2 => intro key x hx; exact absurd hx (List.not_mem_nil x)
  intro jm t htl h
  unfold jarlibStep
  by_cases hb : !env.graph.isJvmTarget t && env.graph.isJarLibrary t
  · rw [if_pos hb]
    refine foldl_pres (fun jm => ∀ key x, x ∈ jm key → x ∈ env.graph.targets) _ ?_ _ jm h
    intro jm' jd hjm' key x hx
    by_cases hk : key = jd
    · subst hk
      rw [Function.update_same] at hx
      rcases osAdd_sub _ t x hx with h' | h'
      · exact hjm' key x h'
      · exact h' ▸ htl
    · rw [Function.update_noteq hk] at hx
      exact hjm' key x hx
  · rw [if_neg hb]; exact h

/-- All owners added by the class pass come from the manifest's targets. -/
theorem mapClasses_from (env : AnalyzerEnv) (m : String → List Nat)
    (h : OwnersFrom (fun t =>
      t ∈ env.graph.targets ∨ t ∈ env.classesByTarget.map Prod.fst) m) :
    OwnersFrom (fun t =>
      t ∈ env.graph.targets ∨ t ∈ env.classesByTarget.map Prod.fst)
      (mapClasses env m) := by
  unfold mapClasses
  refine foldl_pres_mem _ _ env.classesByTarget ?_ _ h
  intro m1 p hp hm1
  have hall : p.1 ∈ env.graph.targets ∨ p.1 ∈ env.classesByTarget.map Prod.fst :=
    Or.inr (List.mem_map.mpr ⟨p, hp, rfl⟩)
  refine foldl_pres _ _ ?_ _ m1 hm1
  intro m2 q hm2
  refine foldl_pres _ _ ?_ _ m2 hm2
  intro m3 cls hm3
  exact addOwner_from _ _ (pjoin q.1 cls) p.1 hall (addOwner_from _ m3 cls p.1 hall hm3)

/-- All owners added by the jar pass are declaring targets from
`jarlibs_by_id`. -/
theorem mapJars_from (allowed : Nat → Prop) (env : AnalyzerEnv)
    (jl : String × String → List Nat) (m : String → List Nat)
    (hjl : ∀ key x, x ∈ jl key → allowed x)
    (h : OwnersFrom allowed m) : OwnersFrom allowed (mapJars env jl m) := by
  unfold mapJars
  cases env.ivyProducts with
  | none => exact h
  | some infoss =>
      refine foldl_pres (OwnersFrom allowed) _ ?_ _ m h
      intro m1 infos
      refine foldl_pres (OwnersFrom allowed) _ ?_ _ m1
      intro m2 info
      refine foldl_pres (OwnersFrom allowed) _ ?_ _ m2
      intro m3 r hm3
      unfold register_transitive_jars_for_ref
      by_cases hr : jl (r.org, r.name) = []
      · rw [if_pos hr]; exact hm3
      · rw [if_neg hr]
        refine foldl_pres (OwnersFrom allowed) _ ?_ _ m3 hm3
        intro mm jar hmm
        cases symSnapshot env (env.realpath jar) with
        | none => exact hmm
        | some s =>
            by_cases hs : s.isEmpty
            · simp only [hs, if_true]; exact hmm
            · simp only [hs, if_false]
              refine foldl_pres (OwnersFrom allowed) _ ?_ _ mm hmm
              intro mm2 cls hmm2
              exact foldl_pres_mem (OwnersFrom allowed) _ (jl (r.org, r.name))
                (fun mm3 t htl hmm3 =>
                  addOwner_from allowed mm3 cls t (hjl _ t htl) hmm3) _ hmm2

/-- Owner provenance of the final File Ownership Index: every owner is
either an in-play target or a key of the compiled-output manifest. -/
theorem targets_by_file_from (env : AnalyzerEnv) (k : String) (t : Nat)
    (h : t ∈ targets_by_file env k) :
    t ∈ env.graph.targets ∨ t ∈ env.classesByTarget.map Prod.fst := by
  unfold targets_by_file sourceOutputIndex at h
  refine mapJars_from
    (fun t => t ∈ env.graph.targets ∨ t ∈ env.classesByTarget.map Prod.fst)
    env _ _ ?_ ?_ k t h
  · intro key x hx
    exact Or.inl (mapSources_snd_from env key x hx)
  · exact mapClasses_from env _
      (ownersFrom_weaken _ _ _ (mapSources_fst_from env) (fun t ht => Or.inl ht))

/-- C8: a `ScalaLibrary`-style target `T` carrying nested `java_sources`
sub-targets registers each nested sub-target's source paths as owned by the
outer target `T`; the nested sub-target `J` itself is not an owner of those
paths unless it enters the index by another route (being in play itself or
appearing in the compiled-output manifest). -/
theorem nested_sources_owned_by_outer (env : AnalyzerEnv) (T J : Nat)
    (src : String) (js : List Nat) (hT : T ∈ env.graph.targets)
    (hscala : env.graph.isScalaLibrary T = true)
    (hjs : env.graph.javaSources T = some js) (hJ : J ∈ js)
    (hsrc : src ∈ env.graph.sources J) :
    T ∈ targets_by_file env (pjoin env.buildroot src) ∧
      (J ∉ env.graph.targets → J ∉ env.classesByTarget.map Prod.fst →
        J ∉ targets_by_file env (pjoin env.buildroot src)) := by
  constructor
  · refine targets_by_file_mem_of_phase12 env _ T ?_
    unfold sourceOutputIndex
    exact ownerExt_mem _ _ (mapClasses_ext env _) _ T
      (mapSources_mem_scala env T J src js hT hscala hjs hJ hsrc)
  · intro h1 h2 hmem
    rcases targets_by_file_from env _ J hmem with h | h
    · exact h1 h
    · exact h2 h

/-- Concrete environment for the C8 witness: outer Scala-style target 0 with
nested sub-target 7 owning source `G.java`; 7 is not in play. -/
def envC8 : AnalyzerEnv :=
  { graph :=
      { univ := [0, 7]
        targets := [0]
        dependencies := fun _ => []
        javaSources := fun t => if t = 0 then some [7] else none
        isJvmTarget := fun t => t = 0
        isJarLibrary := fun _ => false
        isScalaLibrary := fun t => t = 0
        sources := fun t => if t = 7 then ["G.java"] else []
        jarDeps := fun _ => [] }
    buildroot := "br"
    classesByTarget := []
    symlinkMap := none
    ivyProducts := none
    realpath := fun p => p
    zipEntries := fun _ => [] }

/-- Witness for C8. -/
theorem nested_sources_owned_by_outer_witness :
    0 ∈ envC8.graph.targets ∧ envC8.graph.isScalaLibrary 0 = true ∧
      envC8.graph.javaSources 0 = some [7] ∧ (7 : Nat) ∈ [7] ∧
      "G.java" ∈ envC8.graph.sources 7 ∧
      0 ∈ targets_by_file envC8 (pjoin envC8.buildroot "G.java") ∧
      7 ∉ targets_by_file envC8 (pjoin envC8.buildroot "G.java") :=
  ⟨by decide, by decide, rfl, by decide, by decide,
    (nested_sources_owned_by_outer envC8 0 7 "G.java" [7] (by decide) (by decide)
      rfl (by decide) (by decide)).1,
    (nested_sources_owned_by_outer envC8 0 7 "G.java" [7] (by decide) (by decide)
      rfl (by decide) (by decide)).2 (by decide) (by decide)⟩

/-- Folding set insertion over a list accumulates its `toFinset`. -/
theorem foldl_insert_toFinset :
    ∀ (l : List String) (acc : Finset String),
      l.foldl (fun a c => insert c a) acc = l.toFinset ∪ acc := by
  intro l
  induction l with
  | nil => intro acc; simp
  | cons c l ih =>
      intro acc
      simp only [List.foldl_cons, List.toFinset_cons]
      rw [ih (insert c acc)]
      ext x
      simp only [Finset.mem_union, Finset.mem_insert, List.mem_toFinset]
      tauto

/-- The nested classfile-accumulation fold of `bootstrap_jar_classfiles`
flattens to a `toFinset`. -/
theorem bootstrap_classfiles_fold_eq (z : String → List String) :
    ∀ (jars : List String) (acc : Finset String),
      jars.foldl
        (fun acc jar => (jar_classfiles z jar).foldl (fun a c => insert c a) acc) acc
        = (jars.flatMap (jar_classfiles z)).toFinset ∪ acc := by
  intro jars
  induction jars with
  | nil => intro acc; simp
  | cons j jars ih =>
      intro acc
      simp only [List.foldl_cons, List.flatMap_cons, List.toFinset_append]
      rw [ih, foldl_insert_toFinset]
      ext x
      simp only [Finset.mem_union, List.mem_toFinset]
      tauto

/-- C4: the Bootstrap Artifact Index enumerates candidates in classloading
precedence order (override directories first, then the boot classpath, then
extension directories), keeps exactly the candidates that are existing
regular files, and `bootstrap_jar_classfiles` is the flat set of `.class`
entry names across the kept jars. -/
theorem bootstrap_index_spec (e : BootEnv) :
    find_all_bootstrap_jars e = (bootstrapCandidatesSpec e).filter e.isfile ∧
      bootstrap_jar_classfiles e = bootstrapJarClassfilesSpec e := by
  constructor
  · rfl
  · unfold bootstrap_jar_classfiles bootstrapJarClassfilesSpec
    rw [bootstrap_classfiles_fold_eq]
    have h : find_all_bootstrap_jars e = (bootstrapCandidatesSpec e).filter e.isfile := rfl
    rw [h, Finset.union_empty]

/-- The read performed for one resolved jar while building the index. -/
def readStep (env : AnalyzerEnv) (acc : List String) (jar : String) : List String :=
  match symSnapshot env (env.realpath jar) with
  | none => acc
  | some s => if s.isEmpty then acc else acc ++ [s]

/-- The classfile-listing request made for one resolved jar, when accepted. -/
def requestOf (env : AnalyzerEnv) (jar : String) : Option String :=
  match symSnapshot env (env.realpath jar) with
  | none => none
  | some s => if s.isEmpty then none else some s

/-- `readStep` when the jar has no symlink entry. -/
theorem readStep_none (env : AnalyzerEnv) (acc : List String) (jar : String)
    (h : symSnapshot env (env.realpath jar) = none) : readStep env acc jar = acc := by
  unfold readStep
  rw [h]

/-- `readStep` when the jar has a symlink entry. -/
theorem readStep_some (env : AnalyzerEnv) (acc : List String) (jar s : String)
    (h : symSnapshot env (env.realpath jar) = some s) :
    readStep env acc jar = if s.isEmpty then acc else acc ++ [s] := by
  unfold readStep
  rw [h]

/-- `requestOf` when the jar has no symlink entry. -/
theorem requestOf_none (env : AnalyzerEnv) (jar : String)
    (h : symSnapshot env (env.realpath jar) = none) : requestOf env jar = none := by
  unfold requestOf
  rw [h]

/-- `requestOf` when the jar has a symlink entry. -/
theorem requestOf_some (env : AnalyzerEnv) (jar s : String)
    (h : symSnapshot env (env.realpath jar) = some s) :
    requestOf env jar = if s.isEmpty then none else some s := by
  unfold requestOf
  rw [h]

/-- The per-reference read trace accumulates exactly the per-reference
request list. -/
theorem refReads_aux (env : AnalyzerEnv) :
    ∀ (jars : List String) (acc : List String),
      jars.foldl (readStep env) acc = acc ++ jars.filterMap (requestOf env) := by
  intro jars
  induction jars with
  | nil => intro acc; simp
  | cons jar jars ih =>
      intro acc
      simp only [List.foldl_cons, List.filterMap_cons]
      cases hsym : symSnapshot env (env.realpath jar) with
      | none =>
          rw [readStep_none env acc jar hsym, requestOf_none env jar hsym]
          exact ih acc
      | some s =>
          rw [readStep_some env acc jar s hsym, requestOf_some env jar s hsym]
          by_cases hs : s.isEmpty
          · rw [if_pos hs, if_pos hs]
            exact ih acc
          · rw [if_neg hs, if_neg hs, ih (acc ++ [s]), List.append_assoc]
            rfl

/-- One reference's reads equal its requests. -/
theorem refReads_eq (env : AnalyzerEnv) (jl : String × String → List Nat)
    (info : IvyInfo) (r : Ref) :
    refReads env jl info r = refRequests env jl info r := by
  unfold refReads refRequests
  by_cases h : jl (r.org, r.name) = []
  · rw [if_pos h, if_pos h]
  · rw [if_neg h, if_neg h]
    have haux := refReads_aux env (transitiveJars info r) []
    rw [List.nil_append] at haux
    exact haux

/-- Fold-accumulation of list appends flattens to `flatMap`. -/
theorem foldl_append_flat {α : Type _} (F : α → List String) :
    ∀ (l : List α) (acc : List String),
      l.foldl (fun a x => a ++ F x) acc = acc ++ l.flatMap F := by
  intro l
  induction l with
  | nil => intro acc; simp
  | cons x l ih =>
      intro acc
      simp only [List.foldl_cons, List.flatMap_cons]
      rw [ih (acc ++ F x), List.append_assoc]

/-- Middle level of the jar-pass read trace. -/
theorem archiveReads_level2 (env : AnalyzerEnv) (jl : String × String → List Nat) :
    ∀ (infos : List IvyInfo) (acc : List String),
      infos.foldl
        (fun a2 info => info.refs.foldl (fun a3 r => a3 ++ refReads env jl info r) a2)
        acc
        = acc ++ infos.flatMap
            (fun info => info.refs.flatMap fun r => refReads env jl info r) := by
  intro infos
  induction infos with
  | nil => intro acc; simp
  | cons info infos ih =>
      intro acc
      simp only [List.foldl_cons, List.flatMap_cons]
      rw [foldl_append_flat (fun r => refReads env jl info r) info.refs acc,
        ih, List.append_assoc]

/-- Outer level of the jar-pass read trace. -/
theorem archiveReads_level1 (env : AnalyzerEnv) (jl : String × String → List Nat) :
    ∀ (infoss : List (List IvyInfo)) (acc : List String),
      infoss.foldl
        (fun a1 infos =>
          infos.foldl
            (fun a2 info => info.refs.foldl (fun a3 r => a3 ++ refReads env jl info r) a2)
            a1)
        acc
        = acc ++ infoss.flatMap
            (fun infos => infos.flatMap fun info =>
              info.refs.flatMap fun r => refReads env jl info r) := by
  intro infoss
  induction infoss with
  | nil => intro acc; simp
  | cons infos infoss ih =>
      intro acc
      simp only [List.foldl_cons, List.flatMap_cons]
      rw [archiveReads_level2 env jl infos acc, ih, List.append_assoc]

/-- C9 (amended): `_jar_classfiles` keeps no cache — every accepted
(reference, resolved jar, non-empty symlink) request re-opens the archive, so
the trace of archive reads performed by the jar pass equals, in order and
with multiplicity, the full request list; a path requested twice is read
twice, and each listing is re-derived from the archive contents. -/
theorem archive_reads_once_per_request (env : AnalyzerEnv) :
    archiveReads env = allRequests env := by
  unfold archiveReads allRequests
  cases env.ivyProducts with
  | none => rfl
  | some infoss =>
      have h1 := archiveReads_level1 env (mapSources env).2 infoss []
      rw [List.nil_append] at h1
      have h2 : (infoss.flatMap fun infos => infos.flatMap fun info =>
            info.refs.flatMap fun r => refReads env (mapSources env).2 info r)
          = infoss.flatMap fun infos => infos.flatMap fun info =>
            info.refs.flatMap fun r => refRequests env (mapSources env).2 info r := by
        simp only [refReads_eq]
      exact h1.trans h2

/-- Reference declared by library target 5. -/
def refC9A : Ref := { org := "acme", name := "a", rev := "1" }

/-- Reference declared by library target 6. -/
def refC9B : Ref := { org := "acme", name := "b", rev := "1" }

/-- Shared dependency reference whose archive both of the above resolve to. -/
def refC9S : Ref := { org := "x", name := "s", rev := "1" }

/-- Resolution info in which two declared references share one transitive
archive. -/
def infoC9 : IvyInfo :=
  { refs := [refC9A, refC9B, refC9S]
    artifact := fun r =>
      if r = refC9A then "A.jar" else if r = refC9B then "B.jar" else "S.jar"
    depRefs := fun r =>
      if r = refC9A then [refC9S] else if r = refC9B then [refC9S] else [] }

/-- Environment in which the shared archive `S.jar` is requested once per
declaring reference. -/
def envC9 : AnalyzerEnv :=
  { graph :=
      { univ := [5, 6]
        targets := [5, 6]
        dependencies := fun _ => []
        javaSources := fun _ => none
        isJvmTarget := fun _ => false
        isJarLibrary := fun t => t = 5 || t = 6
        isScalaLibrary := fun _ => false
        sources := fun _ => []
        jarDeps := fun t =>
          if t = 5 then [("acme", "a")] else if t = 6 then [("acme", "b")] else [] }
    buildroot := "br"
    classesByTarget := []
    symlinkMap := some [("S.jar", "S.sym")]
    ivyProducts := some [[infoC9]]
    realpath := fun p => p
    zipEntries := fun p => if p = "S.sym" then ["S.class"] else [] }

/-- C9 counterexample: the archive behind `S.sym` is listed by `_jar_classfiles`
twice in a single invocation — once per requesting reference — so the filtered
entry list is not computed at most once per archive path; there is no cache. -/
theorem jar_classfiles_not_cached_counterexample :
    archiveReads envC9 = ["S.sym", "S.sym"] ∧
      ¬ (archiveReads envC9).count "S.sym" ≤ 1 := by
  constructor
  · decide
  · decide

/-- The keys written by the own-sources registration of one target. -/
def ownSourceKeys (env : AnalyzerEnv) (t : Nat) : List String :=
  if env.graph.isJvmTarget t then
    (env.graph.sources t).map (pjoin env.buildroot)
  else []

/-- The keys written by the nested-sources registration of one target. -/
def javaSourceKeys (env : AnalyzerEnv) (t : Nat) : List String :=
  if env.graph.isScalaLibrary t then
    ((env.graph.javaSources t).getD []).flatMap
      fun j => (env.graph.sources j).map (pjoin env.buildroot)
  else []

/-- The keys written by the class pass. -/
def classKeys (env : AnalyzerEnv) : List String :=
  env.classesByTarget.flatMap fun p =>
    p.2.flatMap fun q => q.2.flatMap fun cls => [cls, pjoin q.1 cls]

/-- The keys written by one reference of the jar pass. -/
def refKeys (env : AnalyzerEnv) (jl : String × String → List Nat)
    (info : IvyInfo) (r : Ref) : List String :=
  if jl (r.org, r.name) = [] then []
  else
    (transitiveJars info r).flatMap fun jar =>
      match symSnapshot env (env.realpath jar) with
      | none => []
      | some s => if s.isEmpty then [] else jar_classfiles env.zipEntries s

/-- The keys written by the jar pass. -/
def jarKeys (env : AnalyzerEnv) : List String :=
  match env.ivyProducts with
  | none => []
  | some infoss =>
      infoss.flatMap fun infos =>
        infos.flatMap fun info =>
          info.refs.flatMap fun r => refKeys env (mapSources env).2 info r

/-- All keys registered while building the File Ownership Index. -/
def registeredKeys (env : AnalyzerEnv) : List String :=
  env.graph.targets.flatMap (fun t => ownSourceKeys env t ++ javaSourceKeys env t)
    ++ classKeys env ++ jarKeys env

/-- A fold none of whose steps touches key `k` leaves `k`'s value unchanged. -/
theorem foldl_untouched {α : Type _} (k : String)
    (f : (String → List Nat) → α → (String → List Nat)) :
    ∀ (l : List α), (∀ m x, x ∈ l → f m x k = m k) →
      ∀ m : String → List Nat, (l.foldl f m) k = m k := by
  intro l
  induction l with
  | nil => intro _ m; rfl
  | cons x l ih =>
      intro h m
      simp only [List.foldl_cons]
      rw [ih (fun m' x' hx' => h m' x' (List.mem_cons_of_mem x hx')) (f m x),
        h m x (List.mem_cons_self x l)]

/-- The own-sources registration leaves unlisted keys unchanged. -/
theorem registerOwnSources_untouched (env : AnalyzerEnv) (t : Nat) (k : String)
    (hk : k ∉ ownSourceKeys env t) :
    ∀ m, registerOwnSources env m t k = m k := by
  intro m
  unfold registerOwnSources
  unfold ownSourceKeys at hk
  by_cases hb : env.graph.isJvmTarget t
  · rw [if_pos hb]
    rw [if_pos hb] at hk
    refine foldl_untouched k _ _ ?_ m
    intro m' src hsrc
    refine addOwner_other m' (pjoin env.buildroot src) t k ?_
    intro hke
    exact hk (hke ▸ List.mem_map.mpr ⟨src, hsrc, rfl⟩)
  · rw [if_neg hb]

/-- The nested-sources registration leaves unlisted keys unchanged. -/
theorem registerJavaSourcesSources_untouched (env : AnalyzerEnv) (t : Nat)
    (k : String) (hk : k ∉ javaSourceKeys env t) :
    ∀ m, registerJavaSourcesSources env m t k = m k := by
  intro m
  unfold registerJavaSourcesSources
  unfold javaSourceKeys at hk
  by_cases hb : env.graph.isScalaLibrary t
  · rw [if_pos hb]
    rw [if_pos hb] at hk
    refine foldl_untouched k _ _ ?_ m
    intro m' j hj
    refine foldl_untouched k _ _ ?_ m'
    intro m2 src hsrc
    refine addOwner_other m2 (pjoin env.buildroot src) t k ?_
    intro hke
    refine hk (List.mem_flatMap.mpr ⟨j, hj, ?_⟩)
    exact hke ▸ List.mem_map.mpr ⟨src, hsrc, rfl⟩
  · rw [if_neg hb]

/-- The source pass never writes a key outside its key lists. -/
theorem sourceStep_untouched (env : AnalyzerEnv) (t : Nat) (k : String)
    (h1 : k ∉ ownSourceKeys env t) (h2 : k ∉ javaSourceKeys env t) :
    ∀ m, sourceStep env m t k = m k := by
  intro m
  unfold sourceStep
  rw [registerJavaSourcesSources_untouched env t k h2,
    registerOwnSources_untouched env t k h1]

/-- The class pass leaves unlisted keys unchanged. -/
theorem mapClasses_untouched (env : AnalyzerEnv) (k : String)
    (hk : k ∉ classKeys env) : ∀ m, mapClasses env m k = m k := by
  intro m
  unfold mapClasses
  unfold classKeys at hk
  refine foldl_untouched k _ _ ?_ m
  intro m1 p hp
  refine foldl_untouched k _ _ ?_ m1
  intro m2 q hq
  refine foldl_untouched k _ _ ?_ m2
  intro m3 cls hcls
  have hknot : k ≠ cls ∧ k ≠ pjoin q.1 cls := by
    constructor <;> intro hke <;>
      refine hk (List.mem_flatMap.mpr ⟨p, hp, List.mem_flatMap.mpr ⟨q, hq,
        List.mem_flatMap.mpr ⟨cls, hcls, ?_⟩⟩⟩)
    · rw [hke]; exact List.mem_cons_self _ _
    · rw [hke]; exact List.mem_cons_of_mem _ (List.mem_singleton.mpr rfl)
  rw [addOwner_other _ (pjoin q.1 cls) p.1 k hknot.2, addOwner_other m3 cls p.1 k hknot.1]

/-- One jar-pass registration leaves unlisted keys unchanged. -/
theorem register_transitive_jars_for_ref_untouched (env : AnalyzerEnv)
    (jl : String × String → List Nat) (info : IvyInfo) (r : Ref) (k : String)
    (hk : k ∉ refKeys env jl info r) :
    ∀ m, register_transitive_jars_for_ref env jl info r m k = m k := by
  intro m
  unfold register_transitive_jars_for_ref
  unfold refKeys at hk
  by_cases hr : jl (r.org, r.name) = []
  · rw [if_pos hr]
  · rw [if_neg hr]
    rw [if_neg hr] at hk
    refine foldl_untouched k _ _ ?_ m
    intro mm jar hjar
    cases hsym : symSnapshot env (env.realpath jar) with
    | none => rfl
    | some s =>
        show (if s.isEmpty = true then mm
          else
            (jar_classfiles env.zipEntries s).foldl
              (fun mm2 cls =>
                (jl (r.org, r.name)).foldl (fun mm3 t => addOwner mm3 cls t) mm2)
              mm) k = mm k
        by_cases hs : s.isEmpty
        · rw [if_pos hs]
        · rw [if_neg hs]
          refine foldl_untouched k _ _ ?_ mm
          intro mm2 cls hcls
          refine foldl_untouched k _ _ ?_ mm2
          intro mm3 t _
          refine addOwner_other mm3 cls t k ?_
          intro hke
          refine hk (List.mem_flatMap.mpr ⟨jar, hjar, ?_⟩)
          rw [hsym]
          show k ∈ (if s.isEmpty = true then [] else jar_classfiles env.zipEntries s)
          rw [if_neg hs]
          exact hke ▸ hcls

/-- The jar pass leaves unlisted keys unchanged. -/
theorem mapJars_untouched (env : AnalyzerEnv) (k : String)
    (hk : k ∉ jarKeys env) : ∀ m, mapJars env (mapSources env).2 m k = m k := by
  intro m
  unfold mapJars
  unfold jarKeys at hk
  cases hprod : env.ivyProducts with
  | none => rfl
  | some infoss =>
      rw [hprod] at hk
      refine foldl_untouched k _ _ ?_ m
      intro m1 infos hinfos
      refine foldl_untouched k _ _ ?_ m1
      intro m2 info hinfo
      refine foldl_untouched k _ _ ?_ m2
      intro m3 r hrr
      refine register_transitive_jars_for_ref_untouched env _ info r k ?_ m3
      intro hin
      exact hk (List.mem_flatMap.mpr ⟨infos, hinfos,
        List.mem_flatMap.mpr ⟨info, hinfo, List.mem_flatMap.mpr ⟨r, hrr, hin⟩⟩⟩)

/-- C10 helper: looking up a key no pass ever wrote returns the default
empty owner list. -/
theorem targets_by_file_unregistered (env : AnalyzerEnv) (k : String)
    (hk : k ∉ registeredKeys env) : targets_by_file env k = [] := by
  unfold registeredKeys at hk
  have hA : k ∉ env.graph.targets.flatMap
      fun t => ownSourceKeys env t ++ javaSourceKeys env t :=
    fun h => hk (List.mem_append.mpr (Or.inl (List.mem_append.mpr (Or.inl h))))
  have hB : k ∉ classKeys env :=
    fun h => hk (List.mem_append.mpr (Or.inl (List.mem_append.mpr (Or.inr h))))
  have hC : k ∉ jarKeys env := fun h => hk (List.mem_append.mpr (Or.inr h))
  have h1 : (mapSources env).1 k = [] := by
    rw [mapSources_fst]
    refine foldl_untouched k _ _ ?_ _
    intro m t ht
    refine sourceStep_untouched env t k ?_ ?_ m
    · intro hin
      exact hA (List.mem_flatMap.mpr ⟨t, ht, List.mem_append.mpr (Or.inl hin)⟩)
    · intro hin
      exact hA (List.mem_flatMap.mpr ⟨t, ht, List.mem_append.mpr (Or.inr hin)⟩)
  have h2 : sourceOutputIndex env k = [] := by
    unfold sourceOutputIndex
    rw [mapClasses_untouched env k hB, h1]
  unfold targets_by_file
  rw [mapJars_untouched env k hC, h2]

/-- Non-emptiness goals are monotone along `OwnerExt`; packaged for
`foldl_estab`. -/
theorem nonNilAt_mono (k : String) :
    ∀ m₁ m₂ : String → List Nat, OwnerExt m₁ m₂ → m₁ k ≠ [] → m₂ k ≠ [] :=
  fun m₁ m₂ h => ownerExt_nonnil m₁ m₂ h k

/-- A listed own-source key comes out non-empty. -/
theorem registerOwnSources_estab_key (env : AnalyzerEnv) (t : Nat) (k : String)
    (hk : k ∈ ownSourceKeys env t) :
    ∀ m, registerOwnSources env m t k ≠ [] := by
  intro m
  unfold ownSourceKeys at hk
  unfold registerOwnSources
  by_cases hb : env.graph.isJvmTarget t
  · rw [if_pos hb] at hk ⊢
    obtain ⟨src, hsrc, rfl⟩ := List.mem_map.mp hk
    refine foldl_estab _ (fun mm => mm (pjoin env.buildroot src) ≠ [])
      (fun mm src' => addOwner_ext mm (pjoin env.buildroot src') t)
      (nonNilAt_mono (pjoin env.buildroot src)) _ src hsrc ?_ m
    intro mm
    rw [addOwner_self]
    exact osAdd_ne_nil _ t
  · rw [if_neg hb] at hk
    exact absurd hk (List.not_mem_nil k)

/-- A listed nested-source key comes out non-empty. -/
theorem registerJavaSourcesSources_estab_key (env : AnalyzerEnv) (t : Nat)
    (k : String) (hk : k ∈ javaSourceKeys env t) :
    ∀ m, registerJavaSourcesSources env m t k ≠ [] := by
  intro m
  unfold javaSourceKeys at hk
  unfold registerJavaSourcesSources
  by_cases hb : env.graph.isScalaLibrary t
  · rw [if_pos hb] at hk ⊢
    obtain ⟨j, hj, hk2⟩ := List.mem_flatMap.mp hk
    obtain ⟨src, hsrc, rfl⟩ := List.mem_map.mp hk2
    refine foldl_estab _ (fun mm => mm (pjoin env.buildroot src) ≠ [])
      (fun mm j' => foldl_ownerext _
        (fun mm2 src' => addOwner_ext mm2 (pjoin env.buildroot src') t) _ mm)
      (nonNilAt_mono (pjoin env.buildroot src)) _ j hj ?_ m
    intro mm
    refine foldl_estab _ (fun mm2 => mm2 (pjoin env.buildroot src) ≠ [])
      (fun mm2 src' => addOwner_ext mm2 (pjoin env.buildroot src') t)
      (nonNilAt_mono (pjoin env.buildroot src)) _ src hsrc ?_ mm
    intro mm2
    rw [addOwner_self]
    exact osAdd_ne_nil _ t
  · rw [if_neg hb] at hk
    exact absurd hk (List.not_mem_nil k)

/-- A key listed for a target's source-pass step comes out non-empty. -/
theorem sourceStep_estab_key (env : AnalyzerEnv) (t : Nat) (k : String)
    (h : k ∈ ownSourceKeys env t ∨ k ∈ javaSourceKeys env t) :
    ∀ m, sourceStep env m t k ≠ [] := by
  intro m
  unfold sourceStep
  rcases h with h | h
  · exact nonNilAt_mono k _ _ (registerJavaSourcesSources_ext env _ t)
      (registerOwnSources_estab_key env t k h m)
  · exact registerJavaSourcesSources_estab_key env t k h _

/-- A key listed for the source pass comes out non-empty. -/
theorem mapSources_estab_key (env : AnalyzerEnv) (k : String)
    (h : k ∈ env.graph.targets.flatMap
      fun t => ownSourceKeys env t ++ javaSourceKeys env t) :
    (mapSources env).1 k ≠ [] := by
  rw [mapSources_fst]
  obtain ⟨t, ht, hk⟩ := List.mem_flatMap.mp h
  exact foldl_estab (sourceStep env) (fun m => m k ≠ []) (sourceStep_ext env)
    (nonNilAt_mono k) _ t ht (sourceStep_estab_key env t k (List.mem_append.mp hk)) _

/-- A key listed for the class pass comes out non-empty. -/
theorem mapClasses_estab_key (env : AnalyzerEnv) (k : String)
    (h : k ∈ classKeys env) : ∀ m, mapClasses env m k ≠ [] := by
  intro m
  unfold classKeys at h
  obtain ⟨p, hp, h2⟩ := List.mem_flatMap.mp h
  obtain ⟨q, hq, h3⟩ := List.mem_flatMap.mp h2
  obtain ⟨cls, hcls, h4⟩ := List.mem_flatMap.mp h3
  unfold mapClasses
  refine foldl_estab _ (fun m1 => m1 k ≠ [])
    (fun m1 (p' : Nat × List (String × List String)) => foldl_ownerext _
      (fun m2 (q' : String × List String) => foldl_ownerext _
        (fun m3 (cls' : String) => ownerExt_trans _ _ _ (addOwner_ext m3 cls' p'.1)
          (addOwner_ext _ (pjoin q'.1 cls') p'.1)) _ m2) _ m1)
    (nonNilAt_mono k) _ p hp ?_ m
  intro m1
  refine foldl_estab _ (fun m2 => m2 k ≠ [])
    (fun m2 (q' : String × List String) => foldl_ownerext _
      (fun m3 (cls' : String) => ownerExt_trans _ _ _ (addOwner_ext m3 cls' p.1)
        (addOwner_ext _ (pjoin q'.1 cls') p.1)) _ m2)
    (nonNilAt_mono k) _ q hq ?_ m1
  intro m2
  refine foldl_estab _ (fun m3 => m3 k ≠ [])
    (fun m3 (cls' : String) => ownerExt_trans _ _ _ (addOwner_ext m3 cls' p.1)
      (addOwner_ext _ (pjoin q.1 cls') p.1))
    (nonNilAt_mono k) _ cls hcls ?_ m2
  intro m3
  rcases List.mem_cons.mp h4 with hkc | hkc
  · rw [hkc]
    refine nonNilAt_mono cls _ _ (addOwner_ext _ (pjoin q.1 cls) p.1) ?_
    rw [addOwner_self]
    exact osAdd_ne_nil _ p.1
  · rw [List.mem_singleton.mp hkc, addOwner_self]
    exact osAdd_ne_nil _ p.1

/-- The innermost jar-pass fold over a non-empty declaring-target list leaves
the classfile key non-empty. -/
theorem owners_fold_estab (cls : String) :
    ∀ (l : List Nat) (mm : String → List Nat), l ≠ [] →
      (l.foldl (fun mm3 t => addOwner mm3 cls t) mm) cls ≠ [] := by
  intro l mm hl
  cases l with
  | nil => exact absurd rfl hl
  | cons t ts =>
      simp only [List.foldl_cons]
      refine nonNilAt_mono cls _ _
        (foldl_ownerext _ (fun mm3 t' => addOwner_ext mm3 cls t') ts _) ?_
      rw [addOwner_self]
      exact osAdd_ne_nil _ t

/-- A key listed for one jar-pass reference comes out non-empty. -/
theorem register_ref_estab_key (env : AnalyzerEnv)
    (jl : String × String → List Nat) (info : IvyInfo) (r : Ref) (k : String)
    (hk : k ∈ refKeys env jl info r) :
    ∀ m, register_transitive_jars_for_ref env jl info r m k ≠ [] := by
  intro m
  unfold refKeys at hk
  unfold register_transitive_jars_for_ref
  by_cases hr : jl (r.org, r.name) = []
  · rw [if_pos hr] at hk
    exact absurd hk (List.not_mem_nil k)
  · rw [if_neg hr] at hk ⊢
    obtain ⟨jar, hjar, hkin⟩ := List.mem_flatMap.mp hk
    refine foldl_estab _ (fun mm => mm k ≠ []) ?_ (nonNilAt_mono k) _ jar hjar ?_ m
    · intro mm jar'
      cases symSnapshot env (env.realpath jar') with
      | none => exact ownerExt_refl mm
      | some s =>
          by_cases hs : s.isEmpty
          · simp only [hs, if_true]
            exact ownerExt_refl mm
          · simp only [hs, if_false]
            refine foldl_ownerext _ ?_ _ mm
            intro mm2 cls
            exact foldl_ownerext _ (fun mm3 t => addOwner_ext mm3 cls t) _ mm2
    · intro mm
      cases hsym : symSnapshot env (env.realpath jar) with
      | none =>
          rw [hsym] at hkin
          exact absurd hkin (List.not_mem_nil k)
      | some s =>
          rw [hsym] at hkin
          by_cases hs : s.isEmpty
          · have h' : k ∈ (if s.isEmpty = true then []
                else jar_classfiles env.zipEntries s) := hkin
            rw [if_pos hs] at h'
            exact absurd h' (List.not_mem_nil k)
          · have hkin' : k ∈ jar_classfiles env.zipEntries s := by
              have h' : k ∈ (if s.isEmpty = true then []
                  else jar_classfiles env.zipEntries s) := hkin
              rwa [if_neg hs] at h'
            show (if s.isEmpty = true then mm
              else
                (jar_classfiles env.zipEntries s).foldl
                  (fun mm2 cls =>
                    (jl (r.org, r.name)).foldl (fun mm3 t => addOwner mm3 cls t) mm2)
                  mm) k ≠ []
            rw [if_neg hs]
            refine foldl_estab _ (fun mm2 => mm2 k ≠ [])
              (fun mm2 cls => foldl_ownerext _
                (fun mm3 t => addOwner_ext mm3 cls t) _ mm2)
              (nonNilAt_mono k) _ k hkin' ?_ mm
            intro mm2
            exact owners_fold_estab k (jl (r.org, r.name)) mm2 hr

/-- A key listed for the jar pass comes out non-empty. -/
theorem mapJars_estab_key (env : AnalyzerEnv) (k : String)
    (hk : k ∈ jarKeys env) : ∀ m, mapJars env (mapSources env).2 m k ≠ [] := by
  intro m
  unfold jarKeys at hk
  unfold mapJars
  cases hprod : env.ivyProducts with
  | none =>
      rw [hprod] at hk
      exact absurd hk (List.not_mem_nil k)
  | some infoss =>
      rw [hprod] at hk
      obtain ⟨infos, hinfos, h2⟩ := List.mem_flatMap.mp hk
      obtain ⟨info, hinfo, h3⟩ := List.mem_flatMap.mp h2
      obtain ⟨r, hrr, h4⟩ := List.mem_flatMap.mp h3
      refine foldl_estab _ (fun m1 => m1 k ≠ [])
        (fun m1 infos' => foldl_ownerext _
          (fun m2 info' => foldl_ownerext _
            (fun m3 r' => register_transitive_jars_for_ref_ext env _ info' r' m3) _ m2)
          _ m1)
        (nonNilAt_mono k) _ infos hinfos ?_ m
      intro m1
      refine foldl_estab _ (fun m2 => m2 k ≠ [])
        (fun m2 info' => foldl_ownerext _
          (fun m3 r' => register_transitive_jars_for_ref_ext env _ info' r' m3) _ m2)
        (nonNilAt_mono k) _ info hinfo ?_ m1
      intro m2
      refine foldl_estab _ (fun m3 => m3 k ≠ [])
        (fun m3 r' => register_transitive_jars_for_ref_ext env _ info r' m3)
        (nonNilAt_mono k) _ r hrr ?_ m2
      intro m3
      exact register_ref_estab_key env _ info r k h4 m3

/-- C10: looking up a file identifier never registered during the build
returns the empty owner set (defaultdict semantics, no error), and the
non-empty-owner-set invariant holds exactly for the keys registered during
the build pass. -/
theorem lookup_unregistered_key (env : AnalyzerEnv) (k : String) :
    (k ∉ registeredKeys env → targets_by_file env k = []) ∧
      (k ∈ registeredKeys env → targets_by_file env k ≠ []) := by
  constructor
  · exact targets_by_file_unregistered env k
  · intro hk
    unfold registeredKeys at hk
    rcases List.mem_append.mp hk with h | hjar
    · rcases List.mem_append.mp h with hsrc | hcls
      · have h1 : (mapSources env).1 k ≠ [] := mapSources_estab_key env k hsrc
        have h2 : sourceOutputIndex env k ≠ [] :=
          nonNilAt_mono k _ _ (mapClasses_ext env _) h1
        unfold targets_by_file
        exact nonNilAt_mono k _ _ (mapJars_ext env _ _) h2
      · have h2 : sourceOutputIndex env k ≠ [] := by
          unfold sourceOutputIndex
          exact mapClasses_estab_key env k hcls _
        unfold targets_by_file
        exact nonNilAt_mono k _ _ (mapJars_ext env _ _) h2
    · unfold targets_by_file
      exact mapJars_estab_key env k hjar _

/-- Concrete environment for the C10 witness. -/
def envC10 : AnalyzerEnv :=
  { graph :=
      { univ := [0]
        targets := [0]
        dependencies := fun _ => []
        javaSources := fun _ => none
        isJvmTarget := fun t => t = 0
        isJarLibrary := fun _ => false
        isScalaLibrary := fun _ => false
        sources := fun t => if t = 0 then ["M.java"] else []
        jarDeps := fun _ => [] }
    buildroot := "wr"
    classesByTarget := []
    symlinkMap := none
    ivyProducts := none
    realpath := fun p => p
    zipEntries := fun _ => [] }

/-- Witness for C10: a never-registered key yields the empty owner list, a
registered key a non-empty one. -/
theorem lookup_unregistered_key_witness :
    ("nope" ∉ registeredKeys envC10 ∧ targets_by_file envC10 "nope" = []) ∧
      (pjoin "wr" "M.java" ∈ registeredKeys envC10 ∧
        targets_by_file envC10 (pjoin "wr" "M.java") ≠ []) :=
  ⟨⟨by decide, (lookup_unregistered_key envC10 "nope").1 (by decide)⟩,
    ⟨by decide, (lookup_unregistered_key envC10 (pjoin "wr" "M.java")).2 (by decide)⟩⟩
